import Mathlib

/-!
Verification development for the semantic-code-mcp indexing/retrieval engine.

The TypeScript sources are shallowly embedded: strings are `List Char`,
JavaScript exceptions are `Except JsError`, and the stateful pieces
(vector store, embedder, reranker scores) appear as explicit oracle
parameters.  Every definition mirrors the corresponding source function;
spec-level predicates used for comparison are clearly marked.
-/

namespace SemanticMcp

instance {ε α : Type} [DecidableEq ε] [DecidableEq α] : DecidableEq (Except ε α) := fun
  | .ok a, .ok b =>
      if h : a = b then .isTrue (by rw [h]) else .isFalse (by intro hc; cases hc; exact h rfl)
  | .error a, .error b =>
      if h : a = b then .isTrue (by rw [h]) else .isFalse (by intro hc; cases hc; exact h rfl)
  | .ok _, .error _ => .isFalse (by intro hc; cases hc)
  | .error _, .ok _ => .isFalse (by intro hc; cases hc)

/-- JavaScript error values thrown by the engine (src/errors.ts):
the embedder hierarchy plus the security errors; `otherError` stands for
any error outside those classes. -/
inductive JsError
  | embedderError
  | modelLoadError
  | embeddingGenerationError
  | invalidFilter
  | otherError
  deriving DecidableEq, Repr

/-- src/search/keyword-search.ts `isEmbeddingError`: checks the error name
against the three embedder error classes. -/
def isEmbeddingError : JsError → Bool
  | .embedderError => true
  | .modelLoadError => true
  | .embeddingGenerationError => true
  | _ => false

/-- The character class of SAFE_PATTERN `/^[a-zA-Z0-9_\-%]+$/`
(src/search/filter-builder.ts). -/
def isSafeChar (c : Char) : Bool :=
  ('a' ≤ c && c ≤ 'z') || ('A' ≤ c && c ≤ 'Z') || ('0' ≤ c && c ≤ '9') ||
    c = '_' || c = '-' || c = '%'

/-- src/search/filter-builder.ts `MAX_FILTER_VALUE_LENGTH`. -/
def MAX_FILTER_VALUE_LENGTH : Nat := 500

/-- src/search/filter-builder.ts `validateFilterPattern`: length bound,
then the regex test (which also rejects the empty string, since the
pattern uses `+`). -/
def validateFilterPattern (p : List Char) : Bool :=
  if p.length > MAX_FILTER_VALUE_LENGTH then false
  else !p.isEmpty && p.all isSafeChar

/-- `.replace(/[\\\/]/g, '_').replace(/\./g, '_')`: path separators and
dots become underscores (character-wise). -/
def replaceSepDot (p : List Char) : List Char :=
  p.map fun c => if c = '\\' || c = '/' || c = '.' then '_' else c

/-- src/search/filter-builder.ts `sanitizePathPattern`. -/
def sanitizePathPattern (p : List Char) : Except JsError (List Char) :=
  if validateFilterPattern (replaceSepDot p) then .ok (replaceSepDot p)
  else .error .invalidFilter

/-- `.replace(/\*\*/g, '%')`: each non-overlapping `**` pair becomes one
`%`, scanning left to right. -/
def replaceDoubleStar : List Char → List Char
  | '*' :: '*' :: rest => '%' :: replaceDoubleStar rest
  | c :: rest => c :: replaceDoubleStar rest
  | [] => []

/-- The subsequent character-wise replacements of `sanitizeGlobPattern`:
`* → %`, `? → _`, separators and dots `→ _`. -/
def globCharMap (c : Char) : Char :=
  if c = '*' then '%'
  else if c = '?' then '_'
  else if c = '\\' || c = '/' || c = '.' then '_'
  else c

/-- The full glob-to-LIKE translation used by `sanitizeGlobPattern`
before validation. -/
def sanitizeGlobCore (p : List Char) : List Char :=
  (replaceDoubleStar p).map globCharMap

/-- src/search/filter-builder.ts `sanitizeGlobPattern`. -/
def sanitizeGlobPattern (p : List Char) : Except JsError (List Char) :=
  if validateFilterPattern (sanitizeGlobCore p) then .ok (sanitizeGlobCore p)
  else .error .invalidFilter

/-- src/search/filter-builder.ts `buildPathLikeCondition`. -/
def buildPathLikeCondition (p : List Char) : Except JsError (List Char) := do
  let s ← sanitizePathPattern p
  return "id LIKE '".data ++ s ++ "%'".data

/-- src/search/filter-builder.ts `buildLanguageCondition`: language names
must match `/^[a-z]+$/`. -/
def buildLanguageCondition (lang : List Char) : Except JsError (List Char) :=
  if !lang.isEmpty && lang.all (fun c => 'a' ≤ c && c ≤ 'z') then
    .ok ("language = '".data ++ lang ++ "'".data)
  else .error .invalidFilter

/-- src/search/filter-builder.ts `buildFilePatternCondition`. -/
def buildFilePatternCondition (p : List Char) : Except JsError (List Char) := do
  let s ← sanitizeGlobPattern p
  return "id LIKE '%".data ++ s ++ "'".data

/-- src/search/filter-builder.ts `EXTENSION_TO_LANGUAGE` as an
association list (key order as in the source object literal). -/
def EXTENSION_TO_LANGUAGE : List (List Char × List Char) :=
  [ (".ts".data, "typescript".data)
  , (".tsx".data, "typescript".data)
  , (".js".data, "javascript".data)
  , (".jsx".data, "javascript".data)
  , (".mjs".data, "javascript".data)
  , (".cjs".data, "javascript".data)
  , (".py".data, "python".data)
  , (".pyw".data, "python".data)
  , (".go".data, "go".data)
  , (".rs".data, "rust".data) ]

/-- Lookup into the extension table (`EXTENSION_TO_LANGUAGE[ext]`). -/
def extLookup (ext : List Char) : Option (List Char) :=
  (EXTENSION_TO_LANGUAGE.find? fun kv => kv.1 = ext).map (·.2)

/-- ASCII letter test for the `[a-z]` class under the `i` flag. -/
def isAsciiLetterChar (c : Char) : Bool :=
  ('a' ≤ c && c ≤ 'z') || ('A' ≤ c && c ≤ 'Z')

/-- ASCII lowering, as `String.prototype.toLowerCase` acts on ASCII. -/
def toLowerAscii (c : Char) : Char :=
  if 'A' ≤ c && c ≤ 'Z' then Char.ofNat (c.toNat + 32) else c

/-- The regex `/^\*(\.[a-z]+)$/i` of `buildSafeFilter`: on success returns
the captured group (a dot followed by one or more ASCII letters). -/
def extShapeMatch : List Char → Option (List Char)
  | '*' :: '.' :: rest =>
      if !rest.isEmpty && rest.all isAsciiLetterChar then some ('.' :: rest) else none
  | _ => none

/-- Filter options (src/search/filter-builder.ts `FilterOptions`).
`some []` models the empty string, which is falsy in the source's
truthiness tests. -/
structure FilterOptions where
  path : Option (List Char) := none
  filePattern : Option (List Char) := none

/-- The conditions contributed by `options.path` in `buildSafeFilter`. -/
def pathConds (o : FilterOptions) : Except JsError (List (List Char)) :=
  match o.path with
  | some p =>
      if p.isEmpty then .ok []
      else do
        let c ← buildPathLikeCondition p
        return [c]
  | none => .ok []

/-- The conditions contributed by `options.filePattern` in
`buildSafeFilter`: the `*.ext` shortcut consults the extension table
(adding nothing when the extension is unknown); other patterns go
through the generic glob translation. -/
def filePatternConds (o : FilterOptions) : Except JsError (List (List Char)) :=
  match o.filePattern with
  | some fp =>
      if fp.isEmpty then .ok []
      else
        match extShapeMatch fp with
        | some extRaw =>
            match extLookup (extRaw.map toLowerAscii) with
            | some lang => do
                let c ← buildLanguageCondition lang
                return [c]
            | none => .ok []
        | none => do
            let c ← buildFilePatternCondition fp
            return [c]
  | none => .ok []

/-- `conditions.join(' AND ')`. -/
def joinAnd : List (List Char) → List Char
  | [] => []
  | [c] => c
  | c :: rest => c ++ " AND ".data ++ joinAnd rest

/-- src/search/filter-builder.ts `buildSafeFilter`: collect the path
condition then the file-pattern condition; `none` when no condition was
produced. -/
def buildSafeFilter (o : FilterOptions) : Except JsError (Option (List Char)) := do
  let c1 ← pathConds o
  let c2 ← filePatternConds o
  let conds := c1 ++ c2
  return if conds.isEmpty then none else some (joinAnd conds)

example : buildSafeFilter ⟨some "src/test".data, none⟩ = .ok (some "id LIKE 'src_test%'".data) := by decide
example : buildSafeFilter ⟨none, some "*.ts".data⟩ = .ok (some "language = 'typescript'".data) := by decide
example : buildSafeFilter ⟨none, some "*.md".data⟩ = .ok none := by decide
example : buildSafeFilter ⟨some "src".data, some "*.ts".data⟩ =
    .ok (some "id LIKE 'src%' AND language = 'typescript'".data) := by decide
example : buildSafeFilter ⟨some "'; DROP TABLE--".data, none⟩ = .error .invalidFilter := by decide
example : buildSafeFilter ⟨none, some "**/*.test.ts".data⟩ =
    .ok (some "id LIKE '%%_%_test_ts'".data) := by decide

/-! ### Lemmas about the filter builder -/

lemma length_replaceSepDot (p : List Char) : (replaceSepDot p).length = p.length := by
  simp [replaceSepDot]

lemma validateFilterPattern_eq_false_of_mem {p : List Char} {c : Char}
    (hc : c ∈ p) (hbad : isSafeChar c = false) : validateFilterPattern p = false := by
  have hall : p.all isSafeChar = false := by
    cases hall : p.all isSafeChar with
    | false => rfl
    | true => exact absurd (List.all_eq_true.mp hall c hc) (by simp [hbad])
  unfold validateFilterPattern
  split
  · rfl
  · simp [hall]

lemma validateFilterPattern_eq_false_of_long {p : List Char}
    (h : 500 < p.length) : validateFilterPattern p = false := by
  unfold validateFilterPattern MAX_FILTER_VALUE_LENGTH
  rw [if_pos h]

lemma mem_of_mem_replaceSepDot {p : List Char} {c : Char}
    (h : c ∈ replaceSepDot p) (hbad : isSafeChar c = false) : c ∈ p := by
  rcases List.mem_map.mp h with ⟨a, ha, heq⟩
  by_cases hcond : (a = '\\' || a = '/' || a = '.') = true
  · rw [if_pos hcond] at heq
    subst heq
    exact absurd hbad (by decide)
  · rw [if_neg hcond] at heq
    subst heq
    exact ha

lemma mem_replaceSepDot_of_mem {p : List Char} {c : Char}
    (hc : c ∈ p) (h1 : c ≠ '\\') (h2 : c ≠ '/') (h3 : c ≠ '.') : c ∈ replaceSepDot p := by
  refine List.mem_map.mpr ⟨c, hc, ?_⟩
  simp [h1, h2, h3]

lemma mem_replaceDoubleStar_of_mem {c : Char} (hstar : c ≠ '*') :
    ∀ p : List Char, c ∈ p → c ∈ replaceDoubleStar p := by
  intro p
  induction p using replaceDoubleStar.induct
  next rest ih =>
    intro hmem
    rw [replaceDoubleStar.eq_1]
    rcases List.mem_cons.mp hmem with rfl | hmem'
    · exact absurd rfl hstar
    rcases List.mem_cons.mp hmem' with rfl | hmem''
    · exact absurd rfl hstar
    · exact List.mem_cons_of_mem _ (ih hmem'')
  next x rest hside ih =>
    intro hmem
    rw [replaceDoubleStar.eq_2 x rest hside]
    rcases List.mem_cons.mp hmem with rfl | hmem'
    · exact List.mem_cons_self _ _
    · exact List.mem_cons_of_mem _ (ih hmem')
  next =>
    intro hmem
    cases hmem

lemma mem_sanitizeGlobCore_of_mem {p : List Char} {c : Char}
    (hc : c ∈ p) (hstar : c ≠ '*') (hq : c ≠ '?') (h1 : c ≠ '\\') (h2 : c ≠ '/')
    (h3 : c ≠ '.') : c ∈ sanitizeGlobCore p := by
  refine List.mem_map.mpr ⟨c, mem_replaceDoubleStar_of_mem hstar p hc, ?_⟩
  simp [globCharMap, hstar, hq, h1, h2, h3]

lemma ne_nil_of_mem {p : List Char} {c : Char} (hc : c ∈ p) : p ≠ [] := by
  intro h; subst h; cases hc

/-- A file pattern containing a quote, space or semicolon cannot match the
`*.ext` shortcut shape. -/
lemma extShapeMatch_eq_none_of_mem {p : List Char} {c : Char}
    (hc : c ∈ p) (hin : c = '\'' ∨ c = ' ' ∨ c = ';') : extShapeMatch p = none := by
  unfold extShapeMatch
  split
  next rest =>
    have hrest : c ∈ rest := by
      rcases List.mem_cons.mp hc with rfl | hc'
      · rcases hin with h | h | h <;> exact absurd h (by decide)
      rcases List.mem_cons.mp hc' with rfl | hc''
      · rcases hin with h | h | h <;> exact absurd h (by decide)
      · exact hc''
    have hnl : isAsciiLetterChar c = false := by
      rcases hin with rfl | rfl | rfl <;> decide
    have hall : rest.all isAsciiLetterChar = false := by
      cases hall : rest.all isAsciiLetterChar with
      | false => rfl
      | true => exact absurd (List.all_eq_true.mp hall c hrest) (by simp [hnl])
    simp [hall]
  next => rfl

/-- If the sanitized path fails validation, `buildSafeFilter` with that
path raises `invalid-filter` (whatever the file pattern is). -/
lemma buildSafeFilter_path_error {p : List Char} (fp : Option (List Char))
    (hval : validateFilterPattern (replaceSepDot p) = false) (hne : p ≠ []) :
    buildSafeFilter ⟨some p, fp⟩ = .error .invalidFilter := by
  have hE : p.isEmpty = false := by cases p with | nil => exact absurd rfl hne | cons a l => rfl
  simp only [buildSafeFilter, pathConds, buildPathLikeCondition, sanitizePathPattern, hE,
    Bool.false_eq_true, if_false, hval, if_neg]
  rfl

/-- If a nonempty file pattern misses the `*.ext` shortcut and its glob
translation fails validation, `buildSafeFilter` raises `invalid-filter`. -/
lemma buildSafeFilter_glob_error {fp : List Char}
    (hshape : extShapeMatch fp = none)
    (hval : validateFilterPattern (sanitizeGlobCore fp) = false) (hne : fp ≠ []) :
    buildSafeFilter ⟨none, some fp⟩ = .error .invalidFilter := by
  have hE : fp.isEmpty = false := by cases fp with | nil => exact absurd rfl hne | cons a l => rfl
  simp only [buildSafeFilter, pathConds, filePatternConds, buildFilePatternCondition,
    sanitizeGlobPattern, hE, hshape, Bool.false_eq_true, if_false, hval, if_neg]
  rfl

/-! ### C1 -/

/-- C1 (amended).  (a) Whenever the separator/dot replacement of `p`
contains a character outside the whitelist or `p` exceeds 500
characters, `buildSafeFilter {path := p}` raises `invalid-filter` and
`validateFilterPattern p` is false.  (b) `buildSafeFilter
{filePattern := p}` raises `invalid-filter` whenever `p` additionally
misses the `*.ext` shortcut shape and its glob translation (with `* ? /
\\ .` rewritten) still fails the whitelist test — glob wildcards alone do
not make it raise, which is the correction.  (c) In particular, for every
`p` containing a quote, a space or a semicolon (every SQL-injection
payload), both builder calls raise and validation returns false. -/
theorem c1_whitelist_rejection :
    (∀ p : List Char,
      ((∃ c ∈ replaceSepDot p, isSafeChar c = false) ∨ 500 < p.length) →
        buildSafeFilter ⟨some p, none⟩ = .error .invalidFilter ∧
        validateFilterPattern p = false) ∧
    (∀ p : List Char, extShapeMatch p = none →
      ((∃ c ∈ sanitizeGlobCore p, isSafeChar c = false) ∨
          500 < (sanitizeGlobCore p).length) →
        buildSafeFilter ⟨none, some p⟩ = .error .invalidFilter) ∧
    (∀ (p : List Char) (c : Char), c ∈ p → (c = '\'' ∨ c = ' ' ∨ c = ';') →
        buildSafeFilter ⟨some p, none⟩ = .error .invalidFilter ∧
        buildSafeFilter ⟨none, some p⟩ = .error .invalidFilter ∧
        validateFilterPattern p = false) := by
  refine ⟨?_, ?_, ?_⟩
  · intro p h
    have hval : validateFilterPattern (replaceSepDot p) = false := by
      rcases h with ⟨c, hc, hbad⟩ | hlen
      · exact validateFilterPattern_eq_false_of_mem hc hbad
      · exact validateFilterPattern_eq_false_of_long (by rw [length_replaceSepDot]; exact hlen)
    have hne : p ≠ [] := by
      rcases h with ⟨c, hc, hbad⟩ | hlen
      · exact ne_nil_of_mem (mem_of_mem_replaceSepDot hc hbad)
      · intro he; subst he; simp at hlen
    refine ⟨buildSafeFilter_path_error none hval hne, ?_⟩
    rcases h with ⟨c, hc, hbad⟩ | hlen
    · exact validateFilterPattern_eq_false_of_mem (mem_of_mem_replaceSepDot hc hbad) hbad
    · exact validateFilterPattern_eq_false_of_long hlen
  · intro p hshape h
    have hval : validateFilterPattern (sanitizeGlobCore p) = false := by
      rcases h with ⟨c, hc, hbad⟩ | hlen
      · exact validateFilterPattern_eq_false_of_mem hc hbad
      · exact validateFilterPattern_eq_false_of_long hlen
    have hne : p ≠ [] := by
      rcases h with ⟨c, hc, hbad⟩ | hlen
      · intro he; subst he; simp [sanitizeGlobCore, replaceDoubleStar] at hc
      · intro he; subst he; simp [sanitizeGlobCore, replaceDoubleStar] at hlen
    exact buildSafeFilter_glob_error hshape hval hne
  · intro p c hc hin
    have hbad : isSafeChar c = false := by rcases hin with rfl | rfl | rfl <;> decide
    have h1 : c ≠ '\\' := by rcases hin with rfl | rfl | rfl <;> decide
    have h2 : c ≠ '/' := by rcases hin with rfl | rfl | rfl <;> decide
    have h3 : c ≠ '.' := by rcases hin with rfl | rfl | rfl <;> decide
    have h4 : c ≠ '*' := by rcases hin with rfl | rfl | rfl <;> decide
    have h5 : c ≠ '?' := by rcases hin with rfl | rfl | rfl <;> decide
    have hmem1 : c ∈ replaceSepDot p := mem_replaceSepDot_of_mem hc h1 h2 h3
    have hmem2 : c ∈ sanitizeGlobCore p := mem_sanitizeGlobCore_of_mem hc h4 h5 h1 h2 h3
    have hshape := extShapeMatch_eq_none_of_mem hc hin
    exact ⟨buildSafeFilter_path_error none
        (validateFilterPattern_eq_false_of_mem hmem1 hbad) (ne_nil_of_mem hc),
      buildSafeFilter_glob_error hshape
        (validateFilterPattern_eq_false_of_mem hmem2 hbad) (ne_nil_of_mem hc),
      validateFilterPattern_eq_false_of_mem hc hbad⟩

/-- C1 counterexample to the claim as stated: `p = "*"` contains, after
separator/dot replacement, the non-whitelist character `*`, yet
`buildSafeFilter {filePattern: "*"}` does not raise — it returns the
predicate `id LIKE '%%'`. -/
theorem c1_star_counterexample :
    (∃ c ∈ replaceSepDot "*".data, isSafeChar c = false) ∧
    buildSafeFilter ⟨none, some "*".data⟩ = .ok (some "id LIKE '%%'".data) := by
  exact ⟨⟨'*', by decide, by decide⟩, by decide⟩

/-- Witness for C1 at the SQL payload `' OR` (quote and spaces). -/
theorem c1_whitelist_rejection_witness :
    buildSafeFilter ⟨some "' OR".data, none⟩ = .error .invalidFilter ∧
    buildSafeFilter ⟨none, some "' OR".data⟩ = .error .invalidFilter ∧
    validateFilterPattern "' OR".data = false :=
  c1_whitelist_rejection.2.2 "' OR".data '\'' (by decide) (Or.inl rfl)

/-! ### C2 -/

/-- Spec-side shape of a single predicate condition: a prefix LIKE on
`id`, a suffix LIKE on `id`, or a language equality, with the
interpolated value whitelisted (resp. a lowercase word). -/
def isGoodCond (c : List Char) : Prop :=
  (∃ s, validateFilterPattern s = true ∧ c = "id LIKE '".data ++ s ++ "%'".data) ∨
  (∃ s, validateFilterPattern s = true ∧ c = "id LIKE '%".data ++ s ++ "'".data) ∨
  (∃ l, (!l.isEmpty && l.all fun ch => 'a' ≤ ch && ch ≤ 'z') = true ∧
    c = "language = '".data ++ l ++ "'".data)

lemma buildPathLikeCondition_ok {p c : List Char} (h : buildPathLikeCondition p = .ok c) :
    ∃ s, validateFilterPattern s = true ∧ c = "id LIKE '".data ++ s ++ "%'".data := by
  unfold buildPathLikeCondition sanitizePathPattern at h
  split at h
  next hv => exact ⟨replaceSepDot p, hv, (Except.ok.inj h).symm⟩
  next => exact Except.noConfusion h

lemma buildFilePatternCondition_ok {p c : List Char}
    (h : buildFilePatternCondition p = .ok c) :
    ∃ s, validateFilterPattern s = true ∧ c = "id LIKE '%".data ++ s ++ "'".data := by
  unfold buildFilePatternCondition sanitizeGlobPattern at h
  split at h
  next hv => exact ⟨sanitizeGlobCore p, hv, (Except.ok.inj h).symm⟩
  next => exact Except.noConfusion h

lemma buildLanguageCondition_ok {l c : List Char} (h : buildLanguageCondition l = .ok c) :
    ∃ lang, (!lang.isEmpty && lang.all fun ch => 'a' ≤ ch && ch ≤ 'z') = true ∧
      c = "language = '".data ++ lang ++ "'".data := by
  unfold buildLanguageCondition at h
  split at h
  next hv => exact ⟨l, hv, (Except.ok.inj h).symm⟩
  next => exact Except.noConfusion h

lemma pathConds_ok {path fp : Option (List Char)} {cs : List (List Char)}
    (h : pathConds ⟨path, fp⟩ = .ok cs) : ∀ c ∈ cs, isGoodCond c := by
  cases path with
  | none =>
      simp [pathConds] at h
      subst h; intro c hc; cases hc
  | some p =>
      simp only [pathConds] at h
      split at h
      · simp at h; subst h; intro c hc; cases hc
      · cases hb : buildPathLikeCondition p with
        | error e => rw [hb] at h; simp at h
        | ok cond =>
            rw [hb] at h; simp at h; subst h
            intro c hc
            rw [List.mem_singleton] at hc; subst hc
            exact Or.inl (buildPathLikeCondition_ok hb)

lemma filePatternConds_ok {path fp : Option (List Char)} {cs : List (List Char)}
    (h : filePatternConds ⟨path, fp⟩ = .ok cs) : ∀ c ∈ cs, isGoodCond c := by
  cases fp with
  | none =>
      simp [filePatternConds] at h
      subst h; intro c hc; cases hc
  | some p =>
      simp only [filePatternConds] at h
      split at h
      · simp at h; subst h; intro c hc; cases hc
      · split at h
        next extRaw _ =>
          split at h
          next lang hl =>
              cases hb : buildLanguageCondition lang with
              | error e => rw [hb] at h; simp at h
              | ok cond =>
                  rw [hb] at h; simp at h; subst h
                  intro c hc
                  rw [List.mem_singleton] at hc; subst hc
                  exact Or.inr (Or.inr (buildLanguageCondition_ok hb))
          next => simp at h; subst h; intro c hc; cases hc
        next =>
          cases hb : buildFilePatternCondition p with
          | error e => rw [hb] at h; simp at h
          | ok cond =>
              rw [hb] at h; simp at h; subst h
              intro c hc
              rw [List.mem_singleton] at hc; subst hc
              exact Or.inr (Or.inl (buildFilePatternCondition_ok hb))

/-- C2: every predicate string that `buildSafeFilter` returns is an
`' AND '`-join of a nonempty list of conditions, each of one of the
three safe forms (`id LIKE '<s>%'`, `id LIKE '%<s>'`, or
`language = '<l>'` with `<s>` whitelisted of length ≤ 500 and `<l>` a
lowercase word) — so no user-supplied quote, space, semicolon or other
non-whitelist character reaches the predicate. -/
theorem c2_predicate_shape :
    ∀ (o : FilterOptions) (s : List Char), buildSafeFilter o = .ok (some s) →
      ∃ conds : List (List Char), conds ≠ [] ∧ (∀ c ∈ conds, isGoodCond c) ∧
        s = joinAnd conds := by
  intro o s h
  obtain ⟨path, fp⟩ := o
  unfold buildSafeFilter at h
  cases hc1 : pathConds ⟨path, fp⟩ with
  | error e => rw [hc1] at h; exact Except.noConfusion h
  | ok c1 =>
    cases hc2 : filePatternConds ⟨path, fp⟩ with
    | error e => rw [hc1, hc2] at h; exact Except.noConfusion h
    | ok c2 =>
      rw [hc1, hc2] at h
      have h' : (if (c1 ++ c2).isEmpty then none else some (joinAnd (c1 ++ c2))) = some s :=
        Except.ok.inj h
      by_cases hemp : (c1 ++ c2).isEmpty = true
      · rw [if_pos hemp] at h'; exact Option.noConfusion h'
      · rw [if_neg hemp] at h'
        refine ⟨c1 ++ c2, ?_, ?_, (Option.some.inj h').symm⟩
        · intro hnil; exact hemp (by simp [hnil])
        · intro c hc
          rcases List.mem_append.mp hc with hc' | hc'
          · exact pathConds_ok hc1 c hc'
          · exact filePatternConds_ok hc2 c hc'

/-- Witness for C2 at `{path: "src"}`, whose predicate is
`id LIKE 'src%'`. -/
theorem c2_predicate_shape_witness :
    ∃ conds : List (List Char), conds ≠ [] ∧ (∀ c ∈ conds, isGoodCond c) ∧
      "id LIKE 'src%'".data = joinAnd conds :=
  c2_predicate_shape ⟨some "src".data, none⟩ "id LIKE 'src%'".data (by decide)

/-! ### Path utilities (src/utils/paths.ts) -/

/-- Node posix normalization of the segments of an absolute path: empty
and `.` segments vanish, `..` pops the previous segment (and is dropped
at the root). -/
def normAbsSegs (segs : List (List Char)) : List (List Char) :=
  segs.foldl
    (fun acc seg =>
      if seg = [] ∨ seg = ['.'] then acc
      else if seg = ['.', '.'] then acc.dropLast
      else acc ++ [seg])
    []

/-- Join path segments with `/`. -/
def joinSlash : List (List Char) → List Char
  | [] => []
  | [s] => s
  | s :: rest => s ++ '/' :: joinSlash rest

/-- Node `path.posix.resolve` applied to a single absolute path:
normalize the `/`-separated segments. -/
def resolveAbs (p : List Char) : List Char :=
  '/' :: joinSlash (normAbsSegs (p.splitOn '/'))

/-- Node `path.posix.resolve(rootDir, testPath)` for an absolute
`rootDir`: an absolute `testPath` stands alone, otherwise it is joined
onto the root before normalization. -/
def resolveFrom (root test : List Char) : List Char :=
  match test with
  | '/' :: _ => resolveAbs test
  | _ => resolveAbs (root ++ '/' :: test)

/-- src/utils/paths.ts `isWithinRoot`, the non-Windows branch (the
`win32` branch differs only in lowercasing both sides and in the
platform separator): resolved test equals resolved root, or extends it
past a separator. -/
def isWithinRoot (testPath rootDir : List Char) : Bool :=
  (resolveAbs rootDir ++ ['/']).isPrefixOf (resolveFrom rootDir testPath) ||
    resolveFrom rootDir testPath = resolveAbs rootDir

/-- src/utils/paths.ts `pathToChunkId`: separators and dots become
underscores, then `_L{line}` and the optional split suffix are
appended. -/
def pathToChunkId (filePath : List Char) (startLine : Nat) (suffix : List Char) : List Char :=
  replaceSepDot filePath ++ "_L".data ++ (toString startLine).data ++ suffix

/-! ### C3 -/

/-- C3: on posix, `isWithinRoot test root` (with `root` absolute) holds
iff the canonical resolution of `test` against `root` equals the
resolved root or extends it past a `/` (the comparison is the plain,
case-sensitive one); and the three documented examples hold. -/
theorem c3_is_within_root :
    (∀ test root : List Char, root.head? = some '/' →
      (isWithinRoot test root = true ↔
        resolveFrom root test = resolveAbs root ∨
          (resolveAbs root ++ ['/']) <+: resolveFrom root test)) ∧
    isWithinRoot "../../../etc/passwd".data "/home/user/project".data = false ∧
    isWithinRoot "/home/user/project/src".data "/home/user/project".data = true ∧
    isWithinRoot "/home/user/project2".data "/home/user/project".data = false := by
  refine ⟨?_, by decide, by decide, by decide⟩
  intro test root _
  rw [isWithinRoot, Bool.or_eq_true, List.isPrefixOf_iff_prefix, decide_eq_true_eq]
  exact ⟨fun h => h.symm.imp id id, fun h => h.symm.imp id id⟩

/-- Witness for C3: the general clause applied at the first example. -/
theorem c3_is_within_root_witness :
    isWithinRoot "../../../etc/passwd".data "/home/user/project".data = true ↔
      resolveFrom "/home/user/project".data "../../../etc/passwd".data =
          resolveAbs "/home/user/project".data ∨
        (resolveAbs "/home/user/project".data ++ ['/']) <+:
          resolveFrom "/home/user/project".data "../../../etc/passwd".data :=
  c3_is_within_root.1 "../../../etc/passwd".data "/home/user/project".data (by decide)

/-! ### C7 -/

/-- C7: chunk ids are platform independent — rewriting every `/` of a
path to `\\` leaves `pathToChunkId` unchanged — and the documented
example holds for both spellings, with the `_L{line}` suffix. -/
theorem c7_chunk_id_deterministic :
    (∀ (p : List Char) (n : Nat) (suffix : List Char),
      pathToChunkId (p.map fun c => if c = '/' then '\\' else c) n suffix =
        pathToChunkId p n suffix) ∧
    pathToChunkId "src/utils/index.ts".data 42 [] = "src_utils_index_ts_L42".data ∧
    pathToChunkId "src\\utils\\index.ts".data 42 [] = "src_utils_index_ts_L42".data := by
  refine ⟨?_, by decide, by decide⟩
  intro p n suffix
  have hmap : replaceSepDot (p.map fun c => if c = '/' then '\\' else c) = replaceSepDot p := by
    unfold replaceSepDot
    rw [List.map_map]
    apply List.map_congr_left
    intro c _
    by_cases h : c = '/' <;> simp [Function.comp, h]
  rw [pathToChunkId, pathToChunkId, hmap]

/-! ### SQL LIKE semantics and the client-side regex translation -/

/-- SQL LIKE semantics (spec side): `%` matches any character sequence,
`_` any single character, every other character itself; the whole string
must be consumed. -/
def likeMatch : List Char → List Char → Bool
  | [], s => s.isEmpty
  | '%' :: ps, s => s.tails.any fun t => likeMatch ps t
  | '_' :: ps, s =>
      (match s with
       | [] => false
       | _ :: xs => likeMatch ps xs)
  | c :: ps, s =>
      (match s with
       | [] => false
       | x :: xs => c = x && likeMatch ps xs)

/-- Atoms of the regex that `applyFilter` builds from a LIKE pattern:
a literal character, `.` (from `_`), or `.*` (from `%`). -/
inductive RAtom
  | lit (c : Char)
  | dot
  | star
  deriving DecidableEq, Repr

/-- `pattern.replace(/%/g, '.*').replace(/_/g, '.')` as an atom list —
every pattern character is whitelisted, so all other characters are
regex literals. -/
def likeAtoms (pat : List Char) : List RAtom :=
  pat.map fun c => if c = '%' then .star else if c = '_' then .dot else .lit c

/-- The language of `new RegExp('^' + translated).test(s)`: the atoms
must match a prefix of `s` (no `$` anchor, so the rest of the string is
ignored). -/
def reMatch : List RAtom → List Char → Bool
  | [], _ => true
  | .lit c :: ps, s =>
      (match s with
       | [] => false
       | x :: xs => c = x && reMatch ps xs)
  | .dot :: ps, s =>
      (match s with
       | [] => false
       | _ :: xs => reMatch ps xs)
  | .star :: ps, s => s.tails.any fun t => reMatch ps t

lemma likeMatch_pct_iff {ps : List Char} (s : List Char) :
    likeMatch ('%' :: ps) s = true ↔ ∃ u v, s = u ++ v ∧ likeMatch ps v = true := by
  rw [likeMatch.eq_2, List.any_eq_true]
  constructor
  · rintro ⟨t, ht, h⟩
    obtain ⟨u, rfl⟩ := (List.mem_tails _ _).mp ht
    exact ⟨u, t, rfl, h⟩
  · rintro ⟨u, v, rfl, hv⟩
    exact ⟨v, (List.mem_tails _ _).mpr ⟨u, rfl⟩, hv⟩

lemma reMatch_star_iff {ps : List RAtom} (s : List Char) :
    reMatch (.star :: ps) s = true ↔ ∃ u v, s = u ++ v ∧ reMatch ps v = true := by
  rw [reMatch.eq_6, List.any_eq_true]
  constructor
  · rintro ⟨t, ht, h⟩
    obtain ⟨u, rfl⟩ := (List.mem_tails _ _).mp ht
    exact ⟨u, t, rfl, h⟩
  · rintro ⟨u, v, rfl, hv⟩
    exact ⟨v, (List.mem_tails _ _).mpr ⟨u, rfl⟩, hv⟩

/-- Appending a trailing `%` to a LIKE pattern turns full-string
matching into prefix matching. -/
lemma likeMatch_append_pct : ∀ (p s : List Char),
    likeMatch (p ++ ['%']) s = true ↔ ∃ u v, s = u ++ v ∧ likeMatch p u = true := by
  intro p
  induction p with
  | nil =>
      intro s
      constructor
      · intro _
        exact ⟨[], s, rfl, rfl⟩
      · intro _
        rw [List.nil_append, likeMatch.eq_2, List.any_eq_true]
        exact ⟨[], (List.mem_tails _ _).mpr List.nil_suffix, rfl⟩
  | cons c p' ih =>
      intro s
      by_cases hc : c = '%'
      · subst hc
        rw [List.cons_append, likeMatch_pct_iff]
        constructor
        · rintro ⟨u, t, rfl, h⟩
          rcases (ih t).mp h with ⟨a, b, rfl, ha⟩
          refine ⟨u ++ a, b, by rw [List.append_assoc], ?_⟩
          rw [likeMatch_pct_iff]
          exact ⟨u, a, rfl, ha⟩
        · rintro ⟨u, v, rfl, hu⟩
          rw [likeMatch_pct_iff] at hu
          rcases hu with ⟨w, t, rfl, hts⟩
          exact ⟨w, t ++ v, by rw [List.append_assoc], (ih (t ++ v)).mpr ⟨t, v, rfl, hts⟩⟩
      by_cases hc' : c = '_'
      · subst hc'
        constructor
        · intro h
          cases s with
          | nil => rw [List.cons_append, likeMatch.eq_3] at h; cases h
          | cons x xs =>
              rw [List.cons_append, likeMatch.eq_4] at h
              rcases (ih xs).mp h with ⟨a, b, rfl, ha⟩
              exact ⟨x :: a, b, rfl, by rw [likeMatch.eq_4]; exact ha⟩
        · rintro ⟨u, v, rfl, hu⟩
          cases u with
          | nil => rw [likeMatch.eq_3] at hu; cases hu
          | cons x xs =>
              rw [likeMatch.eq_4] at hu
              rw [List.cons_append, List.cons_append, likeMatch.eq_4]
              exact (ih (xs ++ v)).mpr ⟨xs, v, rfl, hu⟩
      · constructor
        · intro h
          cases s with
          | nil =>
              rw [List.cons_append, likeMatch.eq_5 c _ (fun hx => hc hx) (fun hx => hc' hx)] at h
              cases h
          | cons x xs =>
              rw [List.cons_append,
                likeMatch.eq_6 c _ x xs (fun hx => hc hx) (fun hx => hc' hx),
                Bool.and_eq_true] at h
              obtain ⟨hcx, h⟩ := h
              rcases (ih xs).mp h with ⟨a, b, rfl, ha⟩
              refine ⟨x :: a, b, rfl, ?_⟩
              rw [likeMatch.eq_6 c _ x a (fun hx => hc hx) (fun hx => hc' hx), Bool.and_eq_true]
              exact ⟨hcx, ha⟩
        · rintro ⟨u, v, rfl, hu⟩
          cases u with
          | nil =>
              rw [likeMatch.eq_5 c _ (fun hx => hc hx) (fun hx => hc' hx)] at hu
              cases hu
          | cons x xs =>
              rw [likeMatch.eq_6 c _ x xs (fun hx => hc hx) (fun hx => hc' hx),
                Bool.and_eq_true] at hu
              obtain ⟨hcx, hu⟩ := hu
              rw [List.cons_append, List.cons_append,
                likeMatch.eq_6 c _ x (xs ++ v) (fun hx => hc hx) (fun hx => hc' hx),
                Bool.and_eq_true]
              exact ⟨hcx, (ih (xs ++ v)).mpr ⟨xs, v, rfl, hu⟩⟩

/-- The translated regex, tested as an unanchored-at-the-end prefix
match, accepts exactly the strings that the LIKE pattern with a trailing
`%` accepts. -/
lemma reMatch_likeAtoms : ∀ (p s : List Char),
    reMatch (likeAtoms p) s = true ↔ ∃ u v, s = u ++ v ∧ likeMatch p u = true := by
  intro p
  induction p with
  | nil =>
      intro s
      constructor
      · intro _
        exact ⟨[], s, rfl, rfl⟩
      · intro _
        rfl
  | cons c p' ih =>
      intro s
      by_cases hc : c = '%'
      · subst hc
        rw [show likeAtoms ('%' :: p') = .star :: likeAtoms p' from rfl, reMatch_star_iff]
        constructor
        · rintro ⟨u, t, rfl, h⟩
          rcases (ih t).mp h with ⟨a, b, rfl, ha⟩
          refine ⟨u ++ a, b, by rw [List.append_assoc], ?_⟩
          rw [likeMatch_pct_iff]
          exact ⟨u, a, rfl, ha⟩
        · rintro ⟨u, v, rfl, hu⟩
          rw [likeMatch_pct_iff] at hu
          rcases hu with ⟨w, t, rfl, hts⟩
          exact ⟨w, t ++ v, by rw [List.append_assoc], (ih (t ++ v)).mpr ⟨t, v, rfl, hts⟩⟩
      by_cases hc' : c = '_'
      · subst hc'
        rw [show likeAtoms ('_' :: p') = .dot :: likeAtoms p' from rfl]
        constructor
        · intro h
          cases s with
          | nil => rw [reMatch.eq_4] at h; cases h
          | cons x xs =>
              rw [reMatch.eq_5] at h
              rcases (ih xs).mp h with ⟨a, b, rfl, ha⟩
              exact ⟨x :: a, b, rfl, by rw [likeMatch.eq_4]; exact ha⟩
        · rintro ⟨u, v, rfl, hu⟩
          cases u with
          | nil => rw [likeMatch.eq_3] at hu; cases hu
          | cons x xs =>
              rw [likeMatch.eq_4] at hu
              rw [List.cons_append, reMatch.eq_5]
              exact (ih (xs ++ v)).mpr ⟨xs, v, rfl, hu⟩
      · rw [show likeAtoms (c :: p') = .lit c :: likeAtoms p' from by
          simp [likeAtoms, hc, hc']]
        constructor
        · intro h
          cases s with
          | nil => rw [reMatch.eq_2] at h; cases h
          | cons x xs =>
              rw [reMatch.eq_3, Bool.and_eq_true] at h
              obtain ⟨hcx, h⟩ := h
              rcases (ih xs).mp h with ⟨a, b, rfl, ha⟩
              refine ⟨x :: a, b, rfl, ?_⟩
              rw [likeMatch.eq_6 c _ x a (fun hx => hc hx) (fun hx => hc' hx), Bool.and_eq_true]
              exact ⟨hcx, ha⟩
        · rintro ⟨u, v, rfl, hu⟩
          cases u with
          | nil =>
              rw [likeMatch.eq_5 c _ (fun hx => hc hx) (fun hx => hc' hx)] at hu
              cases hu
          | cons x xs =>
              rw [likeMatch.eq_6 c _ x xs (fun hx => hc hx) (fun hx => hc' hx),
                Bool.and_eq_true] at hu
              obtain ⟨hcx, hu⟩ := hu
              rw [List.cons_append, reMatch.eq_3, Bool.and_eq_true]
              exact ⟨hcx, (ih (xs ++ v)).mpr ⟨xs, v, rfl, hu⟩⟩

/-- The client-side translation of a LIKE pattern agrees with SQL
semantics of the pattern with a trailing `%`. -/
lemma reMatch_eq_likeMatch_pct (p s : List Char) :
    reMatch (likeAtoms p) s = likeMatch (p ++ ['%']) s :=
  Bool.coe_iff_coe.mp ((reMatch_likeAtoms p s).trans (likeMatch_append_pct p s).symm)

/-- A doubled trailing `%` is equivalent to a single one. -/
lemma likeMatch_pct_pct (p s : List Char) :
    likeMatch ((p ++ ['%']) ++ ['%']) s = likeMatch (p ++ ['%']) s := by
  rw [Bool.eq_iff_iff, likeMatch_append_pct, likeMatch_append_pct]
  constructor
  · rintro ⟨u, v, rfl, hu⟩
    rw [likeMatch_append_pct] at hu
    rcases hu with ⟨a, b, rfl, ha⟩
    exact ⟨a, b ++ v, by rw [List.append_assoc], ha⟩
  · rintro ⟨u, v, rfl, hu⟩
    refine ⟨u, v, rfl, ?_⟩
    rw [likeMatch_append_pct]
    exact ⟨u, [], by rw [List.append_nil], hu⟩

/-- Variant of the doubled-`%` collapse in right-associated form. -/
lemma likeMatch_pct_pct2 (p s : List Char) :
    likeMatch (p ++ ['%', '%']) s = likeMatch (p ++ ['%']) s := by
  rw [show p ++ ['%', '%'] = (p ++ ['%']) ++ ['%'] by simp, likeMatch_pct_pct]

/-! ### applyFilter (src/search/keyword-search.ts) -/

/-- The record fields consulted by search filtering
(src/store `VectorRecord`): the chunk id and the language tag. -/
structure ChunkRecord where
  id : List Char
  language : List Char
  deriving DecidableEq, Repr

/-- A store search result: a record with a score (src/store
`SearchResult`); scores are opaque to the claims and modelled as
integers. -/
structure SearchResult where
  record : ChunkRecord
  score : Int
  deriving DecidableEq, Repr

/-- JavaScript `\s` for the characters that can occur here. -/
def isJsSpace (c : Char) : Bool :=
  c = ' ' || c = '\t' || c = '\n' || c = '\r'

/-- Consume an exact literal at the head. -/
def stripLit : List Char → List Char → Option (List Char)
  | [], cs => some cs
  | _ :: _, [] => none
  | l :: ls, c :: cs => if l = c then stripLit ls cs else none

/-- Consume exactly one expected character. -/
def expectChar (ch : Char) : List Char → Option (List Char)
  | c :: cs => if c = ch then some cs else none
  | [] => none

/-- Consume `\s+`: at least one whitespace character, then any more. -/
def skipSpaces1 : List Char → Option (List Char)
  | c :: rest => if isJsSpace c then some (rest.dropWhile isJsSpace) else none
  | [] => none

/-- Match `/language\s*=\s*'([^']+)'/` at the head of the string,
returning the capture. -/
def matchLangAt (cs : List Char) : Option (List Char) := do
  let cs ← stripLit "language".data cs
  let cs := cs.dropWhile isJsSpace
  let cs ← expectChar '=' cs
  let cs := cs.dropWhile isJsSpace
  let cs ← expectChar '\'' cs
  let cap := cs.takeWhile fun c => c ≠ '\''
  if cap.isEmpty then none
  else do
    let _ ← expectChar '\'' (cs.drop cap.length)
    some cap

/-- Match `/id\s+LIKE\s+'([^']+)'/` at the head of the string,
returning the capture. -/
def matchIdLikeAt (cs : List Char) : Option (List Char) := do
  let cs ← stripLit "id".data cs
  let cs ← skipSpaces1 cs
  let cs ← stripLit "LIKE".data cs
  let cs ← skipSpaces1 cs
  let cs ← expectChar '\'' cs
  let cap := cs.takeWhile fun c => c ≠ '\''
  if cap.isEmpty then none
  else do
    let _ ← expectChar '\'' (cs.drop cap.length)
    some cap

/-- The JS regex engine's leftmost match: try the pattern at each successive
suffix until it succeeds. -/
def firstMatch (f : List Char → Option (List Char)) : List Char → Option (List Char)
  | [] => f []
  | c :: rest =>
      match f (c :: rest) with
      | some x => some x
      | none => firstMatch f rest

/-- src/search/keyword-search.ts `applyFilter`, for one record: the first
`language = '…'` condition (if any) must equal the record's language, and
the record id must pass the regex translated from the first
`id LIKE '…'` condition (if any). -/
def applyFilterKeep (filter : List Char) (r : ChunkRecord) : Bool :=
  (match firstMatch matchLangAt filter with
   | some l => r.language = l
   | none => true) &&
  (match firstMatch matchIdLikeAt filter with
   | some pat => reMatch (likeAtoms pat) r.id
   | none => true)

/-- src/search/keyword-search.ts `applyFilter` over a result list. -/
def applyFilter (results : List SearchResult) (filter : List Char) : List SearchResult :=
  results.filter fun r => applyFilterKeep filter r.record

example :
    applyFilterKeep "id LIKE 'src%' AND language = 'typescript'".data
      ⟨"src_a_ts_L1".data, "typescript".data⟩ = true := by decide
example :
    applyFilterKeep "id LIKE 'src%' AND language = 'typescript'".data
      ⟨"src_a_ts_L1".data, "python".data⟩ = false := by decide
example :
    applyFilterKeep "id LIKE 'src%'".data ⟨"lib_a_ts_L1".data, "x".data⟩ = false := by decide
example :
    applyFilterKeep "id LIKE '%foo'".data ⟨"foobar".data, "x".data⟩ = true := by decide
example : likeMatch "%foo".data "foobar".data = false := by decide

/-! ### Parsing lemmas for applyFilter on builder predicates -/

lemma takeWhile_all_append {P : Char → Bool} {u : List Char} (v : List Char)
    (h : ∀ c ∈ u, P c = true) : (u ++ v).takeWhile P = u ++ v.takeWhile P := by
  induction u with
  | nil => rfl
  | cons x xs ih =>
      have hx := h x (List.mem_cons_self x xs)
      have ih' := ih fun c hc => h c (List.mem_cons_of_mem _ hc)
      simp [List.takeWhile_cons, hx, ih']

lemma doBind_eq_some {α β : Type} (x : Option α) (f : α → Option β) (b : β) :
    ((do let a ← x; f a) = some b) ↔ ∃ a, x = some a ∧ f a = some b := by
  rw [show ((do let a ← x; f a) : Option β) = x.bind f from rfl, Option.bind_eq_some]

lemma stripLit_eq_some {pre cs rest : List Char} (h : stripLit pre cs = some rest) :
    cs = pre ++ rest := by
  induction pre generalizing cs with
  | nil => cases h; rfl
  | cons l ls ih =>
      cases cs with
      | nil => cases h
      | cons c cs' =>
          unfold stripLit at h
          split at h
          next hlc => rw [← hlc, ih h]; rfl
          next => cases h

lemma stripLit_self (pre rest : List Char) : stripLit pre (pre ++ rest) = some rest := by
  induction pre with
  | nil => rfl
  | cons l ls ih => simp [stripLit, ih]

lemma expectChar_eq_some {ch : Char} {cs rest : List Char}
    (h : expectChar ch cs = some rest) : cs = ch :: rest := by
  cases cs with
  | nil => cases h
  | cons c cs' =>
      replace h : (if c = ch then some cs' else none) = some rest := h
      by_cases hc : c = ch
      · rw [if_pos hc] at h
        injection h with h'
        rw [hc, h']
      · rw [if_neg hc] at h
        cases h

lemma skipSpaces1_suffix {cs rest : List Char} (h : skipSpaces1 cs = some rest) :
    rest <:+ cs := by
  cases cs with
  | nil => cases h
  | cons c cs' =>
      replace h : (if isJsSpace c = true then some (cs'.dropWhile isJsSpace) else none) =
          some rest := h
      by_cases hsp : isJsSpace c = true
      · rw [if_pos hsp] at h
        injection h with h'
        rw [← h']
        exact (List.dropWhile_suffix isJsSpace).trans (List.suffix_cons c cs')
      · rw [if_neg hsp] at h
        cases h

lemma matchLangAt_shape {cs x : List Char} (h : matchLangAt cs = some x) :
    ∃ ws rest, cs = "language".data ++ ws ++ '=' :: rest ∧ ws.all isJsSpace = true := by
  unfold matchLangAt at h
  rw [doBind_eq_some] at h
  rcases h with ⟨cs1, h1, h⟩
  simp only [] at h
  rw [doBind_eq_some] at h
  rcases h with ⟨cs2, h2, -⟩
  refine ⟨cs1.takeWhile isJsSpace, cs2, ?_, ?_⟩
  · rw [stripLit_eq_some h1, ← expectChar_eq_some h2, List.append_assoc,
      List.takeWhile_append_dropWhile]
  · exact List.all_eq_true.mpr fun c hc => List.mem_takeWhile_imp hc

lemma matchLangAt_none_of_no_eq {cs : List Char} (h : '=' ∉ cs) :
    matchLangAt cs = none := by
  cases hm : matchLangAt cs with
  | none => rfl
  | some x =>
      rcases matchLangAt_shape hm with ⟨ws, rest, hcs, -⟩
      exact absurd (by rw [hcs]; simp) h

lemma matchIdLikeAt_memK {cs x : List Char} (h : matchIdLikeAt cs = some x) : 'K' ∈ cs := by
  unfold matchIdLikeAt at h
  rw [doBind_eq_some] at h
  rcases h with ⟨cs1, h1, h⟩
  simp only [] at h
  rw [doBind_eq_some] at h
  rcases h with ⟨cs2, h2, h⟩
  rw [doBind_eq_some] at h
  rcases h with ⟨cs3, h3, -⟩
  have hK : 'K' ∈ cs2 := by rw [stripLit_eq_some h3]; simp
  have hK1 : 'K' ∈ cs1 := (skipSpaces1_suffix h2).subset hK
  rw [stripLit_eq_some h1]
  simp [hK1]

lemma matchIdLikeAt_none_of_no_K {cs : List Char} (h : 'K' ∉ cs) :
    matchIdLikeAt cs = none := by
  cases hm : matchIdLikeAt cs with
  | none => rfl
  | some x => exact absurd (matchIdLikeAt_memK hm) h

lemma stripLit_cons_ne {l c : Char} (ls cs : List Char) (h : ¬l = c) :
    stripLit (l :: ls) (c :: cs) = none := by
  simp [stripLit, h]

lemma matchLangAt_none_head {c : Char} (rest : List Char) (hc : ¬c = 'l') :
    matchLangAt (c :: rest) = none := by
  have h0 : stripLit "language".data (c :: rest) = none :=
    stripLit_cons_ne "anguage".data rest (fun hh => hc hh.symm)
  simp [matchLangAt, h0]

lemma matchIdLikeAt_compute (p tail : List Char) (hp : ∀ c ∈ p, ¬c = '\'') :
    matchIdLikeAt ("id LIKE '".data ++ (p ++ '%' :: '\'' :: tail)) = some (p ++ ['%']) := by
  have e1 : "id LIKE '".data ++ (p ++ '%' :: '\'' :: tail) =
      'i' :: 'd' :: ' ' :: 'L' :: 'I' :: 'K' :: 'E' :: ' ' :: '\'' ::
        (p ++ '%' :: '\'' :: tail) := rfl
  have hcap : List.takeWhile (fun c => !decide (c = '\'')) (p ++ '%' :: '\'' :: tail) =
      p ++ ['%'] := by
    rw [takeWhile_all_append _ (fun c hc => by simp [hp c hc])]
    simp [List.takeWhile_cons]
  have hdrop : (p ++ '%' :: '\'' :: tail).drop (p ++ ['%']).length = '\'' :: tail := by
    rw [show p ++ '%' :: '\'' :: tail = (p ++ ['%']) ++ '\'' :: tail by simp]
    exact List.drop_left _ _
  simp [matchIdLikeAt, e1, stripLit, skipSpaces1, expectChar, isJsSpace, hcap, hdrop,
    List.dropWhile]
  cases p with
  | nil => simp
  | cons x xs => simpa using hp x (List.mem_cons_self x xs)

lemma matchLangAt_compute (l tail : List Char) (hne : l ≠ [])
    (hl : ∀ c ∈ l, ¬c = '\'') :
    matchLangAt ("language = '".data ++ (l ++ '\'' :: tail)) = some l := by
  have e1 : "language = '".data ++ (l ++ '\'' :: tail) =
      'l' :: 'a' :: 'n' :: 'g' :: 'u' :: 'a' :: 'g' :: 'e' :: ' ' :: '=' :: ' ' :: '\'' ::
        (l ++ '\'' :: tail) := rfl
  have hcap : List.takeWhile (fun c => !decide (c = '\'')) (l ++ '\'' :: tail) = l := by
    rw [takeWhile_all_append _ (fun c hc => by simp [hl c hc])]
    simp [List.takeWhile_cons]
  have hdrop : (l ++ '\'' :: tail).drop l.length = '\'' :: tail := List.drop_left _ _
  simp [matchLangAt, e1, stripLit, expectChar, isJsSpace, hcap, hdrop, List.dropWhile]
  cases l with
  | nil => exact absurd rfl hne
  | cons x xs => simpa using hl x (List.mem_cons_self x xs)

lemma firstMatch_cons_of_some {f : List Char → Option (List Char)} {c : Char}
    {rest x : List Char} (h : f (c :: rest) = some x) :
    firstMatch f (c :: rest) = some x := by
  simp [firstMatch, h]

lemma firstMatch_cons_of_none {f : List Char → Option (List Char)} {c : Char}
    {rest : List Char} (h : f (c :: rest) = none) :
    firstMatch f (c :: rest) = firstMatch f rest := by
  simp [firstMatch, h]

lemma firstMatch_eq_none {f : List Char → Option (List Char)} {cs : List Char}
    (h : ∀ s, s <:+ cs → f s = none) : firstMatch f cs = none := by
  induction cs with
  | nil => exact h [] (List.suffix_refl [])
  | cons c rest ih =>
      unfold firstMatch
      rw [h (c :: rest) (List.suffix_refl _)]
      exact ih fun s hs => h s (hs.trans (List.suffix_cons c rest))

lemma firstMatch_append {f : List Char → Option (List Char)} (pre suf : List Char)
    (hpre : ∀ s, s <:+ pre → s ≠ [] → f (s ++ suf) = none) :
    firstMatch f (pre ++ suf) = firstMatch f suf := by
  induction pre with
  | nil => rfl
  | cons c pre' ih =>
      rw [List.cons_append]
      have hstep : f (c :: (pre' ++ suf)) = none :=
        hpre (c :: pre') (List.suffix_refl _) (by simp)
      rw [firstMatch_cons_of_none hstep]
      exact ih fun s hs hne => hpre s (hs.trans (List.suffix_cons c pre')) hne

lemma suffix_append_cases {s a b : List Char} (h : s <:+ a ++ b) :
    s <:+ b ∨ ∃ a', a' <:+ a ∧ a' ≠ [] ∧ s = a' ++ b := by
  obtain ⟨t, ht⟩ := h
  rcases List.append_eq_append_iff.mp ht with ⟨a', ha, hs⟩ | ⟨c', ht', hb⟩
  · cases a' with
    | nil => left; rw [hs]; simp
    | cons x xs =>
        right
        exact ⟨x :: xs, ⟨t, ha.symm⟩, by simp, hs⟩
  · left
    exact ⟨c', hb.symm⟩

lemma suffix_of_suffix_length_le {l₁ l₂ l : List Char} (h₁ : l₁ <:+ l) (h₂ : l₂ <:+ l)
    (hlen : l₁.length ≤ l₂.length) : l₁ <:+ l₂ := by
  obtain ⟨t₁, rfl⟩ := h₁
  obtain ⟨t₂, ht⟩ := h₂
  rcases List.append_eq_append_iff.mp ht with ⟨a', ha, hs⟩ | ⟨c', ht', hb⟩
  · exact ⟨a', hs.symm⟩
  · cases c' with
    | nil =>
        rw [hb]
        simp
    | cons x xs =>
        exfalso
        rw [hb, List.length_append] at hlen
        simp [List.length_cons] at hlen

lemma append_singleton_inj {e : Char} {X R Y S : List Char}
    (h : X ++ e :: R = Y ++ e :: S) (hX : e ∉ X) (hY : e ∉ Y) : X = Y ∧ R = S := by
  induction X generalizing Y with
  | nil =>
      cases Y with
      | nil => simpa using h
      | cons y ys =>
          rw [List.nil_append] at h
          injection h with h1 h2
          exact absurd (h1 ▸ List.mem_cons_self y ys) hY
  | cons x xs ih =>
      cases Y with
      | nil =>
          rw [List.nil_append] at h
          injection h with h1 h2
          exact absurd (h1 ▸ List.mem_cons_self x xs) hX
      | cons y ys =>
          injection h with h1 h2
          subst h1
          obtain ⟨hxy, hrs⟩ := ih h2 (fun hm => hX (List.mem_cons_of_mem _ hm))
            (fun hm => hY (List.mem_cons_of_mem _ hm))
          exact ⟨by rw [hxy], hrs⟩

/-- A suffix that starts inside the sanitized path pattern of a combined
predicate cannot match the language regex: the only `=` in sight is the
one of the language condition, and everything before it would have to be
`language` followed by spaces — impossible, as the letters of
`language ` sit right before the `=`. -/
lemma matchLangAt_none_inner {y l : List Char}
    (hy : ∀ c ∈ y, isSafeChar c = true) :
    matchLangAt (y ++ ("%' AND language = '".data ++ (l ++ ['\'']))) = none := by
  cases hm : matchLangAt (y ++ ("%' AND language = '".data ++ (l ++ ['\'']))) with
  | none => rfl
  | some x =>
      exfalso
      rcases matchLangAt_shape hm with ⟨ws, rest, hcs, hws⟩
      have hR : y ++ ("%' AND language = '".data ++ (l ++ ['\''])) =
          (y ++ "%' AND language ".data) ++ '=' :: (' ' :: '\'' :: (l ++ ['\''])) := by
        rw [List.append_assoc]
        rfl
      rw [hR] at hcs
      have hX : '=' ∉ "language".data ++ ws := by
        intro hmem
        rcases List.mem_append.mp hmem with h | h
        · exact absurd h (by decide)
        · exact absurd (List.all_eq_true.mp hws '=' h) (by decide)
      have hY : '=' ∉ y ++ "%' AND language ".data := by
        intro hmem
        rcases List.mem_append.mp hmem with h | h
        · exact absurd (hy '=' h) (by decide)
        · exact absurd h (by decide)
      obtain ⟨hXY, -⟩ := append_singleton_inj hcs.symm hX hY
      have hws8 : ws = (y ++ "%' AND language ".data).drop 8 := by
        rw [← hXY]
        exact (List.drop_left "language".data ws).symm
      have hefr : 'e' ∈ ("%' AND language ".data).drop 8 := by decide
      have hsub : ("%' AND language ".data).drop 8 <:+ (y ++ "%' AND language ".data).drop 8 := by
        apply suffix_of_suffix_length_le
        · exact (List.drop_suffix _ _).trans ⟨y, rfl⟩
        · exact List.drop_suffix _ _
        · rw [List.length_drop, List.length_drop, List.length_append]
          omega
      have hews : 'e' ∈ ws := hws8 ▸ hsub.subset hefr
      exact absurd (List.all_eq_true.mp hws 'e' hews) (by decide)

/-- No match of the language regex anywhere in a path-only predicate. -/
lemma fm_lang_path {s : List Char} (hs : ∀ c ∈ s, isSafeChar c = true) :
    firstMatch matchLangAt ("id LIKE '".data ++ s ++ "%'".data) = none := by
  apply firstMatch_eq_none
  intro t ht
  apply matchLangAt_none_of_no_eq
  intro hmem
  have hin : '=' ∈ "id LIKE '".data ++ s ++ "%'".data := ht.subset hmem
  rcases List.mem_append.mp hin with h | h
  · rcases List.mem_append.mp h with h' | h'
    · exact absurd h' (by decide)
    · exact absurd (hs '=' h') (by decide)
  · exact absurd h (by decide)

/-- The id-LIKE regex finds the path condition at the very start of a
path-only predicate; the capture is the pattern with its trailing `%`. -/
lemma fm_idlike_path {s : List Char} (hq : ∀ c ∈ s, ¬c = '\'') :
    firstMatch matchIdLikeAt ("id LIKE '".data ++ s ++ "%'".data) = some (s ++ ['%']) :=
  firstMatch_cons_of_some (matchIdLikeAt_compute s [] hq)

/-- The language regex finds the language condition at the start of a
language-only predicate. -/
lemma fm_lang_lang {l : List Char} (hne : l ≠ []) (hq : ∀ c ∈ l, ¬c = '\'') :
    firstMatch matchLangAt ("language = '".data ++ l ++ "'".data) = some l :=
  firstMatch_cons_of_some (matchLangAt_compute l [] hne hq)

/-- No match of the id-LIKE regex anywhere in a language-only
predicate. -/
lemma fm_idlike_lang {l : List Char} (hlow : ∀ c ∈ l, ('a' ≤ c && c ≤ 'z') = true) :
    firstMatch matchIdLikeAt ("language = '".data ++ l ++ "'".data) = none := by
  apply firstMatch_eq_none
  intro t ht
  apply matchIdLikeAt_none_of_no_K
  intro hmem
  have hin : 'K' ∈ "language = '".data ++ l ++ "'".data := ht.subset hmem
  rcases List.mem_append.mp hin with h | h
  · rcases List.mem_append.mp h with h' | h'
    · exact absurd h' (by decide)
    · exact absurd (hlow 'K' h') (by decide)
  · exact absurd h (by decide)

/-- The canonical right-associated spelling of the combined
`path AND language` predicate. -/
def combinedForm (s l : List Char) : List Char :=
  "id LIKE '".data ++ (s ++ ("%' AND language = '".data ++ (l ++ ['\''])))

lemma joinAnd_combined (s l : List Char) :
    joinAnd ["id LIKE '".data ++ s ++ "%'".data, "language = '".data ++ l ++ "'".data] =
      combinedForm s l := by
  show ("id LIKE '".data ++ s ++ "%'".data) ++ " AND ".data ++
      ("language = '".data ++ l ++ "'".data) = combinedForm s l
  unfold combinedForm
  simp only [List.append_assoc]
  rfl

/-- In the combined predicate, the leftmost language-regex match is the
language condition: no earlier position matches. -/
lemma fm_lang_combined {s l : List Char} (hs : ∀ c ∈ s, isSafeChar c = true)
    (hne : l ≠ []) (hq : ∀ c ∈ l, ¬c = '\'') :
    firstMatch matchLangAt (combinedForm s l) = some l := by
  have hsplit : combinedForm s l =
      ("id LIKE '".data ++ (s ++ "%' AND ".data)) ++
        ("language = '".data ++ (l ++ ['\''])) := by
    unfold combinedForm
    simp only [List.append_assoc]
    rfl
  rw [hsplit]
  rw [firstMatch_append]
  · exact firstMatch_cons_of_some (matchLangAt_compute l [] hne hq)
  · intro t ht htne
    rcases suffix_append_cases ht with hcase | ⟨z, hz, hzne, rfl⟩
    · rcases suffix_append_cases hcase with hcase' | ⟨y, hy, hyne, rfl⟩
      · rw [← List.mem_tails] at hcase'
        have hc7 : "%' AND ".data =
            ['%', '\'', ' ', 'A', 'N', 'D', ' '] := rfl
        rw [hc7] at hcase'
        simp only [List.tails] at hcase'
        simp only [List.mem_cons, List.mem_singleton, List.not_mem_nil, or_false] at hcase'
        rcases hcase' with rfl | rfl | rfl | rfl | rfl | rfl | rfl | rfl
        · exact matchLangAt_none_head _ (by decide)
        · exact matchLangAt_none_head _ (by decide)
        · exact matchLangAt_none_head _ (by decide)
        · exact matchLangAt_none_head _ (by decide)
        · exact matchLangAt_none_head _ (by decide)
        · exact matchLangAt_none_head _ (by decide)
        · exact matchLangAt_none_head _ (by decide)
        · exact absurd rfl htne
      · have hysafe : ∀ c ∈ y, isSafeChar c = true := fun c hc => hs c (hy.subset hc)
        have : (y ++ "%' AND ".data) ++ ("language = '".data ++ (l ++ ['\''])) =
            y ++ ("%' AND language = '".data ++ (l ++ ['\''])) := by
          simp only [List.append_assoc]
          rfl
        rw [this]
        exact matchLangAt_none_inner hysafe
    · have hz9 : z ∈ List.tails "id LIKE '".data := (List.mem_tails _ _).mpr hz
      have hc9 : "id LIKE '".data =
          ['i', 'd', ' ', 'L', 'I', 'K', 'E', ' ', '\''] := rfl
      rw [hc9] at hz9
      simp only [List.tails] at hz9
      simp only [List.mem_cons, List.mem_singleton, List.not_mem_nil, or_false] at hz9
      rcases hz9 with rfl | rfl | rfl | rfl | rfl | rfl | rfl | rfl | rfl | rfl
      · exact matchLangAt_none_head _ (by decide)
      · exact matchLangAt_none_head _ (by decide)
      · exact matchLangAt_none_head _ (by decide)
      · exact matchLangAt_none_head _ (by decide)
      · exact matchLangAt_none_head _ (by decide)
      · exact matchLangAt_none_head _ (by decide)
      · exact matchLangAt_none_head _ (by decide)
      · exact matchLangAt_none_head _ (by decide)
      · exact matchLangAt_none_head _ (by decide)
      · exact absurd rfl hzne

/-- In the combined predicate, the leftmost id-LIKE match is the path
condition at position 0. -/
lemma fm_idlike_combined {s l : List Char} (hq : ∀ c ∈ s, ¬c = '\'') :
    firstMatch matchIdLikeAt (combinedForm s l) = some (s ++ ['%']) :=
  firstMatch_cons_of_some
    (matchIdLikeAt_compute s (" AND language = '".data ++ (l ++ ['\''])) hq)

/-! ### C6 -/

/-- Structured (spec-side) view of the conditions `buildSafeFilter`
emits. -/
inductive Cond
  | pathLike (s : List Char)
  | suffixLike (s : List Char)
  | langEq (l : List Char)
  deriving DecidableEq, Repr

/-- The SQL text of a structured condition, exactly as the builder
renders it. -/
def renderCond : Cond → List Char
  | .pathLike s => "id LIKE '".data ++ s ++ "%'".data
  | .suffixLike s => "id LIKE '%".data ++ s ++ "'".data
  | .langEq l => "language = '".data ++ l ++ "'".data

/-- SQL semantics of one condition for a record: LIKE matches the whole
id, language compares for equality. -/
def condSatisfied (r : ChunkRecord) : Cond → Bool
  | .pathLike s => likeMatch (s ++ ['%']) r.id
  | .suffixLike s => likeMatch ('%' :: s) r.id
  | .langEq l => r.language = l

/-- SQL semantics of the conjunction of conditions. -/
def sqlSatisfies (conds : List Cond) (r : ChunkRecord) : Bool :=
  conds.all (condSatisfied r)

/-- Structured mirror of `pathConds`. -/
def pathCondsS (o : FilterOptions) : Except JsError (List Cond) :=
  match o.path with
  | some p =>
      if p.isEmpty then .ok []
      else do
        let s ← sanitizePathPattern p
        return [.pathLike s]
  | none => .ok []

/-- Structured mirror of `filePatternConds`. -/
def filePatternCondsS (o : FilterOptions) : Except JsError (List Cond) :=
  match o.filePattern with
  | some fp =>
      if fp.isEmpty then .ok []
      else
        match extShapeMatch fp with
        | some extRaw =>
            match extLookup (extRaw.map toLowerAscii) with
            | some lang =>
                if !lang.isEmpty && lang.all (fun c => 'a' ≤ c && c ≤ 'z') then
                  .ok [.langEq lang]
                else .error .invalidFilter
            | none => .ok []
        | none => do
            let s ← sanitizeGlobPattern fp
            return [.suffixLike s]
  | none => .ok []

/-- Structured mirror of `buildSafeFilter`. -/
def buildSafeFilterConds (o : FilterOptions) : Except JsError (List Cond) := do
  let c1 ← pathCondsS o
  let c2 ← filePatternCondsS o
  return c1 ++ c2

lemma sanitizePathPattern_ok {p s : List Char} (h : sanitizePathPattern p = .ok s) :
    validateFilterPattern s = true := by
  unfold sanitizePathPattern at h
  split at h
  next hv => cases h; exact hv
  next => exact Except.noConfusion h

lemma sanitizeGlobPattern_ok {p s : List Char} (h : sanitizeGlobPattern p = .ok s) :
    validateFilterPattern s = true := by
  unfold sanitizeGlobPattern at h
  split at h
  next hv => cases h; exact hv
  next => exact Except.noConfusion h

lemma validateFilterPattern_facts {s : List Char} (h : validateFilterPattern s = true) :
    s ≠ [] ∧ ∀ c ∈ s, isSafeChar c = true := by
  unfold validateFilterPattern at h
  split at h
  · cases h
  · rw [Bool.and_eq_true] at h
    obtain ⟨h1, h2⟩ := h
    refine ⟨?_, List.all_eq_true.mp h2⟩
    intro he
    subst he
    cases h1

lemma safe_no_quote {s : List Char} (h : ∀ c ∈ s, isSafeChar c = true) :
    ∀ c ∈ s, ¬c = '\'' :=
  fun c hc he => absurd (he ▸ h c hc) (by decide)

lemma lower_no_quote {l : List Char} (h : ∀ c ∈ l, ('a' ≤ c && c ≤ 'z') = true) :
    ∀ c ∈ l, ¬c = '\'' :=
  fun c hc he => absurd (he ▸ h c hc) (by decide)

lemma pathConds_agree (o : FilterOptions) :
    pathConds o = (pathCondsS o).map (List.map renderCond) := by
  obtain ⟨path, fp⟩ := o
  cases path with
  | none => rfl
  | some p =>
      by_cases hE : p.isEmpty = true
      · simp [pathConds, pathCondsS, hE, Except.map]
      · simp only [pathConds, pathCondsS, hE, Bool.false_eq_true, if_false]
        cases hs : sanitizePathPattern p with
        | error e => simp [buildPathLikeCondition, hs, Except.map]
        | ok s => simp [buildPathLikeCondition, hs, Except.map, renderCond]

lemma filePatternConds_agree (o : FilterOptions) :
    filePatternConds o = (filePatternCondsS o).map (List.map renderCond) := by
  obtain ⟨path, fp⟩ := o
  cases fp with
  | none => rfl
  | some p =>
      by_cases hE : p.isEmpty = true
      · simp [filePatternConds, filePatternCondsS, hE, Except.map]
      · simp only [filePatternConds, filePatternCondsS, hE, Bool.false_eq_true, if_false]
        cases hm : extShapeMatch p with
        | some extRaw =>
            simp only [hm]
            cases hl : extLookup (extRaw.map toLowerAscii) with
            | none => simp [hl, Except.map]
            | some lang =>
                simp only [hl]
                unfold buildLanguageCondition
                split
                next hv => simp [hv, Except.map, renderCond]
                next hv => simp [hv, Except.map]
        | none =>
            simp only [hm]
            cases hs : sanitizeGlobPattern p with
            | error e => simp [buildFilePatternCondition, hs, Except.map]
            | ok s => simp [buildFilePatternCondition, hs, Except.map, renderCond]

lemma buildSafeFilter_agree (o : FilterOptions) :
    buildSafeFilter o = (buildSafeFilterConds o).map fun cs =>
      if cs.isEmpty then none else some (joinAnd (cs.map renderCond)) := by
  unfold buildSafeFilter buildSafeFilterConds
  rw [pathConds_agree, filePatternConds_agree]
  cases hp : pathCondsS o with
  | error e => rfl
  | ok cs1 =>
      cases hf : filePatternCondsS o with
      | error e => rfl
      | ok cs2 =>
          show Except.ok
              (if (List.map renderCond cs1 ++ List.map renderCond cs2).isEmpty = true then none
               else some (joinAnd (List.map renderCond cs1 ++ List.map renderCond cs2))) =
            Except.ok
              (if (cs1 ++ cs2).isEmpty = true then none
               else some (joinAnd (List.map renderCond (cs1 ++ cs2))))
          rw [← List.map_append]
          cases hcs : cs1 ++ cs2 with
          | nil => rfl
          | cons c rest => rfl

lemma pathCondsS_ok {path fp : Option (List Char)} {cs : List Cond}
    (h : pathCondsS ⟨path, fp⟩ = .ok cs) :
    cs = [] ∨ ∃ s, cs = [.pathLike s] ∧ validateFilterPattern s = true := by
  cases path with
  | none => cases h; exact Or.inl rfl
  | some p =>
      simp only [pathCondsS] at h
      split at h
      · cases h; exact Or.inl rfl
      · cases hs : sanitizePathPattern p with
        | error e => rw [hs] at h; simp at h
        | ok s =>
            rw [hs] at h
            simp at h
            exact Or.inr ⟨s, h.symm, sanitizePathPattern_ok hs⟩

lemma filePatternCondsS_ok {path fp : Option (List Char)} {cs : List Cond}
    (h : filePatternCondsS ⟨path, fp⟩ = .ok cs) :
    cs = [] ∨
      (∃ l, cs = [.langEq l] ∧ (!l.isEmpty && l.all fun c => 'a' ≤ c && c ≤ 'z') = true) ∨
      ∃ t, cs = [.suffixLike t] ∧ validateFilterPattern t = true := by
  cases fp with
  | none => cases h; exact Or.inl rfl
  | some p =>
      simp only [filePatternCondsS] at h
      split at h
      · cases h; exact Or.inl rfl
      · split at h
        next extRaw _ =>
          split at h
          next lang hl =>
            split at h
            next hv => cases h; exact Or.inr (Or.inl ⟨lang, rfl, hv⟩)
            next => exact Except.noConfusion h
          next => cases h; exact Or.inl rfl
        next =>
          cases hs : sanitizeGlobPattern p with
          | error e => rw [hs] at h; simp at h
          | ok t =>
              rw [hs] at h
              simp at h
              exact Or.inr (Or.inr ⟨t, h.symm, sanitizeGlobPattern_ok hs⟩)

/-- C6 (amended).  `buildSafeFilter` renders exactly the structured
conditions of `buildSafeFilterConds` (first conjunct).  The client-side
`applyFilter` agrees with SQL semantics on every builder predicate that
contains no suffix condition `id LIKE '%<s>'` — i.e. on path
conditions, language conditions and their conjunction.  (On suffix
conditions it diverges, treating them as containment: see the
counterexample.) -/
theorem c6_apply_filter_agreement :
    (∀ o : FilterOptions,
      buildSafeFilter o = (buildSafeFilterConds o).map fun cs =>
        if cs.isEmpty then none else some (joinAnd (cs.map renderCond))) ∧
    (∀ (o : FilterOptions) (conds : List Cond) (r : ChunkRecord),
      buildSafeFilterConds o = .ok conds →
      (∀ t, Cond.suffixLike t ∉ conds) →
      applyFilterKeep (joinAnd (conds.map renderCond)) r = sqlSatisfies conds r) := by
  refine ⟨buildSafeFilter_agree, ?_⟩
  intro o conds r h hns
  obtain ⟨path, fp⟩ := o
  unfold buildSafeFilterConds at h
  cases hp : pathCondsS ⟨path, fp⟩ with
  | error e => rw [hp] at h; exact Except.noConfusion h
  | ok cs1 =>
      cases hf : filePatternCondsS ⟨path, fp⟩ with
      | error e => rw [hp, hf] at h; exact Except.noConfusion h
      | ok cs2 =>
          rw [hp, hf] at h
          have hconds : conds = cs1 ++ cs2 := (Except.ok.inj h).symm
          subst hconds
          rcases pathCondsS_ok hp with rfl | ⟨s, rfl, hvs⟩ <;>
            rcases filePatternCondsS_ok hf with rfl | ⟨l, rfl, hvl⟩ | ⟨t, rfl, hvt⟩ <;>
            simp only [List.append_nil, List.nil_append, List.singleton_append] at hns ⊢
          · rfl
          · rw [Bool.and_eq_true] at hvl
            obtain ⟨hl1, hl2⟩ := hvl
            have hlne : l ≠ [] := by intro he; subst he; cases hl1
            have hlow := List.all_eq_true.mp hl2
            rw [show joinAnd (List.map renderCond [Cond.langEq l]) =
                "language = '".data ++ l ++ "'".data from rfl]
            unfold applyFilterKeep
            rw [fm_lang_lang hlne (lower_no_quote hlow), fm_idlike_lang hlow]
            simp [sqlSatisfies, condSatisfied]
          · exact absurd (List.mem_singleton.mpr rfl) (hns t)
          · obtain ⟨hsne, hsafe⟩ := validateFilterPattern_facts hvs
            rw [show joinAnd (List.map renderCond [Cond.pathLike s]) =
                "id LIKE '".data ++ s ++ "%'".data from rfl]
            unfold applyFilterKeep
            rw [fm_lang_path hsafe, fm_idlike_path (safe_no_quote hsafe)]
            simp [sqlSatisfies, condSatisfied, reMatch_eq_likeMatch_pct, likeMatch_pct_pct,
              likeMatch_pct_pct2]
          · obtain ⟨hsne, hsafe⟩ := validateFilterPattern_facts hvs
            rw [Bool.and_eq_true] at hvl
            obtain ⟨hl1, hl2⟩ := hvl
            have hlne : l ≠ [] := by intro he; subst he; cases hl1
            have hlow := List.all_eq_true.mp hl2
            rw [show joinAnd (List.map renderCond [Cond.pathLike s, Cond.langEq l]) =
                combinedForm s l from joinAnd_combined s l]
            unfold applyFilterKeep
            rw [fm_lang_combined hsafe hlne (lower_no_quote hlow),
              fm_idlike_combined (safe_no_quote hsafe)]
            simp [sqlSatisfies, condSatisfied, reMatch_eq_likeMatch_pct, likeMatch_pct_pct,
              likeMatch_pct_pct2, Bool.and_comm]
          · exact absurd (by simp) (hns t)

/-- C6 counterexample to the claim as stated: the predicate
`id LIKE '%foo'` (from `filePattern = "foo"`) requires ids ending in
`foo` under SQL semantics, but `applyFilter` keeps the record with id
`foobar` because its regex translation is anchored only at the start. -/
theorem c6_counterexample :
    buildSafeFilter ⟨none, some "foo".data⟩ = .ok (some "id LIKE '%foo'".data) ∧
    buildSafeFilterConds ⟨none, some "foo".data⟩ = .ok [.suffixLike "foo".data] ∧
    applyFilterKeep "id LIKE '%foo'".data ⟨"foobar".data, "x".data⟩ = true ∧
    sqlSatisfies [.suffixLike "foo".data] ⟨"foobar".data, "x".data⟩ = false :=
  ⟨by decide, by decide, by decide, by decide⟩

/-- Witness for C6 at the predicate of `{path: "src"}`. -/
theorem c6_apply_filter_agreement_witness :
    applyFilterKeep (joinAnd ([Cond.pathLike "src".data].map renderCond))
        ⟨"src_x_ts_L1".data, "typescript".data⟩ =
      sqlSatisfies [Cond.pathLike "src".data] ⟨"src_x_ts_L1".data, "typescript".data⟩ :=
  c6_apply_filter_agreement.2 ⟨some "src".data, none⟩ [Cond.pathLike "src".data]
    ⟨"src_x_ts_L1".data, "typescript".data⟩ (by decide) (fun t ht => by simp at ht)

/-! ### Search pipeline (src/search/index.ts, src/search/keyword-search.ts) -/

/-- src/search/index.ts `SearchOptions`; absent fields are `none` and
take the source defaults.  `limit` and `candidateMultiplier` are counts
and modelled as naturals. -/
structure HSearchOptions where
  limit : Option Nat := none
  filePattern : Option (List Char) := none
  path : Option (List Char) := none
  useReranking : Option Bool := none
  candidateMultiplier : Option Nat := none
  fallbackToKeywordSearch : Option Bool := none

/-- The external collaborators of one search call, as oracles: whether
the store is empty, the outcome of `embedQuery`, the store's full-text
and vector search answers (as functions of the requested count and
filter), whether `rerank` throws, and the opaque scores the reranker and
the lexical booster assign. -/
structure SearchOracle where
  isEmpty : Bool
  embedResult : Except JsError (List Int)
  fullTextResults : Nat → List SearchResult
  vectorResults : Nat → Option (List Char) → List SearchResult
  rerankFails : Bool
  rerankScore : SearchResult → Int
  boostScore : SearchResult → Int

def DEFAULT_LIMIT : Nat := 10

def DEFAULT_CANDIDATE_MULTIPLIER : Nat := 5

/-- src/search/keyword-search.ts `KeywordSearchResult`: a search result
flagged as coming from the fallback. -/
structure KeywordSearchResult where
  result : SearchResult
  fromFallback : Bool
  deriving DecidableEq, Repr

/-- src/search/keyword-search.ts `keywordOnlySearch`: empty store short
circuit, build the filter (which may throw), full-text search for
`limit * 2` candidates, client-side filtering, trim to `limit`, flag as
fallback. -/
def keywordOnlySearch (o : HSearchOptions) (orc : SearchOracle) :
    Except JsError (List KeywordSearchResult) :=
  let limit := o.limit.getD 10
  if orc.isEmpty then .ok []
  else do
    let filter ← buildSafeFilter ⟨o.path, o.filePattern⟩
    let results := orc.fullTextResults (limit * 2)
    let results :=
      match filter with
      | some f => applyFilter results f
      | none => results
    let results := results.take limit
    return results.map fun r => { result := r, fromFallback := true }

/-- Modelled from the spec: the lexical booster (src/search/reranker.ts
`boostKeywordMatches` is not among the provided sources) re-scores each
candidate in place — a weighted token-match sum added to the vector
score, clamped — leaving length and order unchanged; the weighting is
irrelevant to the claims and abstracted as the score oracle. -/
def boostKeywordMatches (score : SearchResult → Int) (results : List SearchResult) :
    List SearchResult :=
  results.map fun r => { r with score := score r }

/-- Insertion into a list sorted by descending score. -/
def insertByScoreDesc (score : SearchResult → Int) (r : SearchResult) :
    List SearchResult → List SearchResult
  | [] => [r]
  | x :: xs => if score x ≤ score r then r :: x :: xs else x :: insertByScoreDesc score r xs

/-- Modelled from the spec: the cross-encoder reranker (src/search/
reranker.ts `rerank` is not among the provided sources) scores each
(query, candidate) pair — abstracted as the score oracle — sorts
descending by the new score and keeps the top `k`. -/
def rerank (score : SearchResult → Int) (candidates : List SearchResult) (k : Nat) :
    List SearchResult :=
  (candidates.foldr (insertByScoreDesc score) []).take k

/-- src/search/index.ts `HybridSearchResult`: a result with combined,
vector and keyword scores; `fromFallback` is absent (false) outside the
fallback path. -/
structure HybridSearchResult where
  result : SearchResult
  combinedScore : Int
  vectorScore : Int
  keywordScore : Int
  fromFallback : Bool
  deriving DecidableEq, Repr

/-- src/search/index.ts `hybridSearch`: empty-store short circuit; embed
the query; on an embedder error fall back to keyword search when enabled
(otherwise wrap into `EmbeddingGenerationError`); otherwise vector
search for `limit × candidateMultiplier` candidates (when reranking),
boost, optionally rerank (non-fatally), trim to `limit`, and attach the
score breakdown. -/
def hybridSearch (o : HSearchOptions) (orc : SearchOracle) :
    Except JsError (List HybridSearchResult) :=
  let limit := o.limit.getD DEFAULT_LIMIT
  let useReranking := o.useReranking.getD true
  let candidateMultiplier := o.candidateMultiplier.getD DEFAULT_CANDIDATE_MULTIPLIER
  let fallbackToKeywordSearch := o.fallbackToKeywordSearch.getD true
  if orc.isEmpty then .ok []
  else
    match orc.embedResult with
    | .error e =>
        if fallbackToKeywordSearch && isEmbeddingError e then
          (keywordOnlySearch o orc).map fun keywordResults =>
            keywordResults.map fun kr =>
              { result := kr.result
                combinedScore := kr.result.score
                vectorScore := 0
                keywordScore := kr.result.score
                fromFallback := true }
        else .error .embeddingGenerationError
    | .ok _ => do
        let candidateCount := if useReranking then limit * candidateMultiplier else limit
        let filter ← buildSafeFilter ⟨o.path, o.filePattern⟩
        let vectorResults := orc.vectorResults candidateCount filter
        if vectorResults.isEmpty then return []
        else
          let boostedResults := boostKeywordMatches orc.boostScore vectorResults
          let finalResults :=
            if useReranking && boostedResults.length > limit then
              if orc.rerankFails then boostedResults.take limit
              else rerank orc.rerankScore boostedResults limit
            else boostedResults.take limit
          return finalResults.map fun r =>
            let originalVector := vectorResults.find? fun v => v.record.id = r.record.id
            let boosted := boostedResults.find? fun b => b.record.id = r.record.id
            { result := r
              combinedScore := r.score
              vectorScore := (originalVector.map (·.score)).getD 0
              keywordScore :=
                match boosted with
                | some b => b.score - (originalVector.map (·.score)).getD 0
                | none => 0
              fromFallback := false }

lemma keywordOnlySearch_eval {o : HSearchOptions} {orc : SearchOracle}
    {f : Option (List Char)} (h1 : orc.isEmpty = false)
    (h5 : buildSafeFilter ⟨o.path, o.filePattern⟩ = .ok f) :
    keywordOnlySearch o orc = .ok
      (((match f with
          | some flt => applyFilter (orc.fullTextResults (o.limit.getD 10 * 2)) flt
          | none => orc.fullTextResults (o.limit.getD 10 * 2)).take (o.limit.getD 10)).map
        fun r => { result := r, fromFallback := true }) := by
  unfold keywordOnlySearch
  simp only [h1, Bool.false_eq_true, if_false]
  rw [h5]
  rfl

/-! ### C4 -/

/-- C4 (amended).  When the embedder raises one of the three embedder
errors with fallback enabled, `hybridSearch` returns keyword-fallback
results — at most `limit` of them, all flagged — provided the filter
options themselves are valid (`buildSafeFilter` not raising; an invalid
filter still throws from inside the fallback, which is the correction).
With fallback disabled, any embedding error surfaces as
`EmbeddingGenerationError`. -/
theorem c4_embedder_fallback :
    (∀ (o : HSearchOptions) (orc : SearchOracle) (e : JsError) (f : Option (List Char)),
      orc.isEmpty = false →
      orc.embedResult = .error e →
      isEmbeddingError e = true →
      o.fallbackToKeywordSearch.getD true = true →
      buildSafeFilter ⟨o.path, o.filePattern⟩ = .ok f →
      ∃ res, hybridSearch o orc = .ok res ∧ res.length ≤ o.limit.getD 10 ∧
        ∀ r ∈ res, r.fromFallback = true) ∧
    (∀ (o : HSearchOptions) (orc : SearchOracle) (e : JsError),
      orc.isEmpty = false →
      orc.embedResult = .error e →
      o.fallbackToKeywordSearch = some false →
      hybridSearch o orc = .error .embeddingGenerationError) := by
  constructor
  · intro o orc e f h1 h2 h3 h4 h5
    unfold hybridSearch
    simp only [h1, Bool.false_eq_true, if_false, h2, h3, h4, Bool.and_self, if_true,
      keywordOnlySearch_eval h1 h5, Except.map]
    refine ⟨_, rfl, ?_, ?_⟩
    · simp only [List.length_map, List.length_take, DEFAULT_LIMIT]
      exact min_le_left _ _
    · intro r hr
      simp only [List.mem_map] at hr
      rcases hr with ⟨a, ⟨b, hb, rfl⟩, rfl⟩
      rfl
  · intro o orc e h1 h2 h3
    unfold hybridSearch
    simp only [h1, Bool.false_eq_true, if_false, h2, h3, Option.getD_some, Bool.false_and]

/-- C4 counterexample to the claim as stated: with an invalid `path`
option, an embedder failure and fallback enabled, `hybridSearch` raises
`invalid-filter` from inside the keyword fallback instead of returning
fallback results. -/
theorem c4_counterexample :
    hybridSearch
      { limit := none, filePattern := none, path := some "' OR".data,
        useReranking := none, candidateMultiplier := none,
        fallbackToKeywordSearch := some true }
      { isEmpty := false, embedResult := .error .modelLoadError,
        fullTextResults := fun _ => [], vectorResults := fun _ _ => [],
        rerankFails := false, rerankScore := fun _ => 0, boostScore := fun _ => 0 } =
      .error .invalidFilter := by
  rfl

/-- Witness for C4 at an empty option set and a model-load failure. -/
theorem c4_embedder_fallback_witness :
    ∃ res, hybridSearch
        { limit := none, filePattern := none, path := none, useReranking := none,
          candidateMultiplier := none, fallbackToKeywordSearch := none }
        { isEmpty := false, embedResult := .error .modelLoadError,
          fullTextResults := fun _ => [⟨⟨"a_ts_L1".data, "typescript".data⟩, 1⟩],
          vectorResults := fun _ _ => [], rerankFails := false,
          rerankScore := fun _ => 0, boostScore := fun _ => 0 } = .ok res ∧
      res.length ≤ 10 ∧ ∀ r ∈ res, r.fromFallback = true :=
  c4_embedder_fallback.1 _ _ .modelLoadError none rfl rfl (by decide) rfl (by decide)

/-! ### C8 -/

lemma rerank_length_le (score : SearchResult → Int) (cs : List SearchResult) (k : Nat) :
    (rerank score cs k).length ≤ k := by
  unfold rerank
  rw [List.length_take]
  exact min_le_left _ _

/-- Inversion of an `Except` bind that returned `ok`. -/
lemma exceptBind_eq_ok {α β : Type} {x : Except JsError α} {f : α → Except JsError β} {b : β}
    (h : (do let a ← x; f a) = .ok b) : ∃ a, x = .ok a ∧ f a = .ok b := by
  cases x with
  | error e => exact Except.noConfusion h
  | ok a => exact ⟨a, rfl, h⟩

/-- C8 (amended): `hybridSearch` returns at most `limit` results, where
`limit` defaults to 10 when the option is absent — in particular at most
10 without a limit option.  No 50-result ceiling is enforced anywhere in
`hybridSearch`: a larger limit is honoured as-is (see the
counterexample). -/
theorem c8_limit_bound :
    ∀ (o : HSearchOptions) (orc : SearchOracle) (res : List HybridSearchResult),
      hybridSearch o orc = .ok res → res.length ≤ o.limit.getD 10 := by
  intro o orc res h
  unfold hybridSearch at h
  by_cases h1 : orc.isEmpty = true
  · simp only [h1, if_true] at h
    cases h
    simp
  · rw [Bool.not_eq_true] at h1
    simp only [h1, Bool.false_eq_true, if_false] at h
    cases h2 : orc.embedResult with
    | error e =>
        simp only [h2] at h
        split at h
        · cases h4 : keywordOnlySearch o orc with
          | error e' => rw [h4] at h; exact Except.noConfusion h
          | ok ks =>
              rw [h4] at h
              replace h := (Except.ok.inj h).symm
              subst h
              unfold keywordOnlySearch at h4
              simp only [h1, Bool.false_eq_true, if_false] at h4
              rcases exceptBind_eq_ok h4 with ⟨f, h5, h4⟩
              replace h4 := (Except.ok.inj h4).symm
              subst h4
              simp only [List.length_map, List.length_take]
              exact min_le_left _ _
        · exact Except.noConfusion h
    | ok v =>
        simp only [h2] at h
        rcases exceptBind_eq_ok h with ⟨f, h5, h⟩
        split at h
        all_goals
          split at h
          · replace h := (Except.ok.inj h).symm
            subst h
            simp
          · replace h := (Except.ok.inj h).symm
            subst h
            rw [List.length_map]
            split
            · split
              · rw [List.length_take]
                exact min_le_left _ _
              · exact rerank_length_le _ _ _
            · rw [List.length_take]
              exact min_le_left _ _

/-- C8 counterexample to the claim as stated: with `limit = 51` and 51
vector candidates, `hybridSearch` returns 51 results — more than the
documented ceiling of 50. -/
theorem c8_counterexample :
    ∃ res, hybridSearch
        { limit := some 51, filePattern := none, path := none,
          useReranking := some false, candidateMultiplier := none,
          fallbackToKeywordSearch := none }
        { isEmpty := false, embedResult := .ok [],
          fullTextResults := fun _ => [],
          vectorResults := fun _ _ => List.replicate 51 ⟨⟨"a_ts_L1".data, "typescript".data⟩, 1⟩,
          rerankFails := false, rerankScore := fun _ => 0, boostScore := fun _ => 0 } =
        .ok res ∧ 50 < res.length :=
  ⟨_, rfl, by decide⟩

/-- Witness for C8 on an empty store. -/
theorem c8_limit_bound_witness :
    ([] : List HybridSearchResult).length ≤
      (none : Option Nat).getD 10 :=
  c8_limit_bound
    { limit := none, filePattern := none, path := none, useReranking := none,
      candidateMultiplier := none, fallbackToKeywordSearch := none }
    { isEmpty := true, embedResult := .ok [], fullTextResults := fun _ => [],
      vectorResults := fun _ _ => [], rerankFails := false,
      rerankScore := fun _ => 0, boostScore := fun _ => 0 } [] rfl

/-! ### C5: the extension-table shortcut of buildSafeFilter -/

/-- Every language name in the extension table passes the `/^[a-z]+$/`
check of `buildLanguageCondition`. -/
lemma extLookup_valid {ext lang : List Char} (h : extLookup ext = some lang) :
    (!lang.isEmpty && lang.all fun c => 'a' ≤ c && c ≤ 'z') = true := by
  unfold extLookup at h
  rcases Option.map_eq_some'.mp h with ⟨kv, hfind, hv⟩
  have hmem := List.mem_of_find?_eq_some hfind
  have hall : ∀ kv ∈ EXTENSION_TO_LANGUAGE,
      (!(Prod.snd kv).isEmpty &&
        (Prod.snd kv).all fun c => 'a' ≤ c && c ≤ 'z') = true := by decide
  rw [← hv]
  exact hall kv hmem

/-- C5 (amended): a `filePattern` of shape `*.ext` whose extension is in
the table yields exactly the language equality condition (for `"*.ts"`,
`language = 'typescript'`); an extension of that shape NOT in the table
contributes no condition at all — `buildSafeFilter` returns `ok none`
rather than falling through to the generic glob path. -/
theorem c5_extension_shortcut :
    (∀ fp extRaw lang : List Char,
      extShapeMatch fp = some extRaw →
      extLookup (extRaw.map toLowerAscii) = some lang →
      buildSafeFilter { path := none, filePattern := some fp } =
        .ok (some ("language = '".data ++ lang ++ "'".data))) ∧
    (∀ fp extRaw : List Char,
      extShapeMatch fp = some extRaw →
      extLookup (extRaw.map toLowerAscii) = none →
      buildSafeFilter { path := none, filePattern := some fp } = .ok none) ∧
    buildSafeFilter { path := none, filePattern := some "*.ts".data } =
      .ok (some "language = 'typescript'".data) := by
  refine ⟨?_, ?_, by decide⟩
  · intro fp extRaw lang hshape hlook
    have hne : fp.isEmpty = false := by
      cases fp with
      | nil => exact Option.noConfusion hshape
      | cons a t => rfl
    have hvalid := extLookup_valid hlook
    unfold buildSafeFilter pathConds filePatternConds
    simp only [hne, Bool.false_eq_true, if_false, hshape, hlook,
      buildLanguageCondition, hvalid, if_true]
    rfl
  · intro fp extRaw hshape hlook
    have hne : fp.isEmpty = false := by
      cases fp with
      | nil => exact Option.noConfusion hshape
      | cons a t => rfl
    unfold buildSafeFilter pathConds filePatternConds
    simp only [hne, Bool.false_eq_true, if_false, hshape, hlook]
    rfl

/-- Witness for C5: `"*.py"` yields `language = 'python'`, and the
unknown extension `"*.md"` yields no condition. -/
theorem c5_extension_shortcut_witness :
    buildSafeFilter { path := none, filePattern := some "*.py".data } =
        .ok (some ("language = '".data ++ "python".data ++ "'".data)) ∧
    buildSafeFilter { path := none, filePattern := some "*.md".data } = .ok none :=
  ⟨c5_extension_shortcut.1 "*.py".data ".py".data "python".data (by decide) (by decide),
   c5_extension_shortcut.2.1 "*.md".data ".md".data (by decide) (by decide)⟩

/-- C5 counterexample to the claim as stated: an unknown extension of
the `*.ext` shape does NOT fall through to the generic glob path — the
condition is silently dropped, so `buildSafeFilter({filePattern:
"*.md"})` yields no predicate instead of `id LIKE '%%_md'`. -/
theorem c5_counterexample :
    buildSafeFilter { path := none, filePattern := some "*.md".data } = .ok none ∧
    (Except.ok none : Except JsError (Option (List Char))) ≠
      .ok (some "id LIKE '%%_md'".data) :=
  ⟨by decide, by decide⟩

/-! ### LRU cache (src/utils/cache.ts) -/

/-- utils/cache.ts `CacheEntry`: a stored value together with its
`Date.now()` insertion timestamp. -/
structure CacheEntry (α : Type) where
  value : α
  timestamp : Nat
deriving DecidableEq

/-- utils/cache.ts `LRUCache` state: the backing JS `Map` is modelled by
its entry list in insertion order, oldest first. -/
structure LRUCache (α : Type) where
  entries : List (String × CacheEntry α)
  maxSize : Nat
  ttlMs : Option Nat
deriving DecidableEq

/-- `Map.prototype.get`. -/
def mapGet {α : Type} (es : List (String × CacheEntry α)) (k : String) :
    Option (CacheEntry α) :=
  (es.find? fun e => e.1 = k).map (·.2)

/-- `Map.prototype.delete` (the key's entry is removed; JS key order of
the survivors is unchanged). -/
def mapDelete {α : Type} (es : List (String × CacheEntry α)) (k : String) :
    List (String × CacheEntry α) :=
  es.filter fun e => !decide (e.1 = k)

/-- `Map.prototype.set`: updates the value in place when the key is
present (keeping its insertion position), else appends at the
most-recently-inserted end. -/
def mapSet {α : Type} (es : List (String × CacheEntry α)) (k : String)
    (v : CacheEntry α) : List (String × CacheEntry α) :=
  if es.any fun e => decide (e.1 = k) then
    es.map fun e => if e.1 = k then (k, v) else e
  else es ++ [(k, v)]

/-- utils/cache.ts `LRUCache.get` at time `now`: undefined on a missing
key; with a TTL configured, an expired entry is deleted and undefined
returned; on a hit the entry is moved to the most-recently-used end by
delete + re-insert. -/
def LRUCache.get {α : Type} (c : LRUCache α) (now : Nat) (k : String) :
    Option α × LRUCache α :=
  match mapGet c.entries k with
  | none => (none, c)
  | some entry =>
      match c.ttlMs with
      | some ttl =>
          if now - entry.timestamp > ttl then
            (none, { c with entries := mapDelete c.entries k })
          else
            (some entry.value,
             { c with entries := mapSet (mapDelete c.entries k) k entry })
      | none =>
          (some entry.value,
           { c with entries := mapSet (mapDelete c.entries k) k entry })

/-- The eviction step of utils/cache.ts `LRUCache.set`: when the map is
at capacity, the first key in insertion order
(`this.cache.keys().next().value`, guarded by `!== undefined`) is
deleted. -/
def evictIfFull {α : Type} (maxSize : Nat) (es : List (String × CacheEntry α)) :
    List (String × CacheEntry α) :=
  if es.length ≥ maxSize then
    match es.head? with
    | some e => mapDelete es e.1
    | none => es
  else es

/-- utils/cache.ts `LRUCache.set` at time `now`: an existing key is
deleted first (to move it to the most-recent position), the oldest entry
is evicted at capacity, then the value is inserted with the current
timestamp. -/
def LRUCache.set {α : Type} (c : LRUCache α) (now : Nat) (k : String) (v : α) :
    LRUCache α :=
  { c with
    entries :=
      mapSet
        (evictIfFull c.maxSize
          (if (mapGet c.entries k).isSome then mapDelete c.entries k
           else c.entries))
        k ⟨v, now⟩ }

/-- utils/cache.ts `LRUCache.has`: like `get`'s TTL check (an expired
entry is deleted) but without the move-to-end. -/
def LRUCache.has {α : Type} (c : LRUCache α) (now : Nat) (k : String) :
    Bool × LRUCache α :=
  match mapGet c.entries k with
  | none => (false, c)
  | some entry =>
      match c.ttlMs with
      | some ttl =>
          if now - entry.timestamp > ttl then
            (false, { c with entries := mapDelete c.entries k })
          else (true, c)
      | none => (true, c)

/-- utils/cache.ts `LRUCache.delete`. -/
def LRUCache.delete {α : Type} (c : LRUCache α) (k : String) :
    Bool × LRUCache α :=
  ((mapGet c.entries k).isSome, { c with entries := mapDelete c.entries k })

/-- utils/cache.ts `LRUCache.clear`. -/
def LRUCache.clear {α : Type} (c : LRUCache α) : LRUCache α :=
  { c with entries := [] }

/-- utils/cache.ts `LRUCache.size`. -/
def LRUCache.size {α : Type} (c : LRUCache α) : Nat :=
  c.entries.length

/-- `new LRUCache({maxSize, ttlMs})` (after the constructor's defaulting
of `maxSize`). -/
def LRUCache.empty (α : Type) (maxSize : Nat) (ttlMs : Option Nat) : LRUCache α :=
  ⟨[], maxSize, ttlMs⟩

/-- One public cache operation, each carrying the `Date.now()` value at
call time. -/
inductive CacheOp (α : Type) where
  | get (now : Nat) (k : String)
  | set (now : Nat) (k : String) (v : α)
  | has (now : Nat) (k : String)
  | delete (k : String)
  | clear

/-- The state reached after one cache operation. -/
def applyOp {α : Type} (c : LRUCache α) : CacheOp α → LRUCache α
  | .get now k => (c.get now k).2
  | .set now k v => c.set now k v
  | .has now k => (c.has now k).2
  | .delete k => (c.delete k).2
  | .clear => c.clear

/-- The state reached after a sequence of cache operations. -/
def applyOps {α : Type} (c : LRUCache α) (ops : List (CacheOp α)) : LRUCache α :=
  ops.foldl applyOp c

/-- A sequence of `set` calls, all at time `now`. -/
def setAll {α : Type} (c : LRUCache α) (now : Nat) (kvs : List (String × α)) :
    LRUCache α :=
  kvs.foldl (fun c kv => c.set now kv.1 kv.2) c

/-- Distinctness of the backing map's keys — the `Map` invariant every
reachable state enjoys. -/
@[reducible] def keysNodup {α : Type} (es : List (String × CacheEntry α)) : Prop :=
  (es.map Prod.fst).Nodup

/-- The entry list produced by fresh inserts at time `now`. -/
def entriesOf {α : Type} (now : Nat) (kvs : List (String × α)) :
    List (String × CacheEntry α) :=
  kvs.map fun kv => (kv.1, ⟨kv.2, now⟩)

example : ((LRUCache.empty Nat 2 none).set 0 "a" 1).entries = [("a", ⟨1, 0⟩)] := by decide
example : (setAll (LRUCache.empty Nat 2 none) 0 [("a", 1), ("b", 2), ("c", 3)]).entries =
    [("b", ⟨2, 0⟩), ("c", ⟨3, 0⟩)] := by decide
example : ((LRUCache.mk [("a", ⟨1, 0⟩), ("b", ⟨2, 3⟩)] 2 none : LRUCache Nat).get 5 "a").2.entries =
    [("b", ⟨2, 3⟩), ("a", ⟨1, 0⟩)] := by decide
example : ((LRUCache.mk [("a", ⟨1, 0⟩)] 2 (some 5) : LRUCache Nat).get 10 "a").1 = none := by decide
example : ((LRUCache.mk [("a", ⟨1, 0⟩)] 2 (some 5) : LRUCache Nat).get 3 "a").1 = some 1 := by decide

/-- A key absent from every entry is not found. -/
lemma mapGet_eq_none {α : Type} {es : List (String × CacheEntry α)} {k : String}
    (h : ∀ e ∈ es, ¬e.1 = k) : mapGet es k = none := by
  have hf : es.find? (fun e => e.1 = k) = none :=
    List.find?_eq_none.mpr (by intro e he; simpa using h e he)
  unfold mapGet
  rw [hf]
  rfl

/-- Lookup of the head key. -/
lemma mapGet_cons_self {α : Type} {es : List (String × CacheEntry α)} {k : String}
    {v : CacheEntry α} : mapGet ((k, v) :: es) k = some v := by
  unfold mapGet
  rw [List.find?_cons_of_pos es (by simp)]
  rfl

/-- Lookup skips a head with a different key. -/
lemma mapGet_cons_ne {α : Type} {es : List (String × CacheEntry α)} {k' k : String}
    {v : CacheEntry α} (h : ¬k' = k) :
    mapGet ((k', v) :: es) k = mapGet es k := by
  unfold mapGet
  rw [List.find?_cons_of_neg es (by simpa using h)]

/-- Lookup skips a prefix with no occurrence of the key. -/
lemma mapGet_append_absent {α : Type} {es es' : List (String × CacheEntry α)}
    {k : String} (h : ∀ e ∈ es, ¬e.1 = k) :
    mapGet (es ++ es') k = mapGet es' k := by
  induction es with
  | nil => rfl
  | cons a t ih =>
      obtain ⟨a1, a2⟩ := a
      rw [List.cons_append, mapGet_cons_ne (h (a1, a2) (List.mem_cons_self _ t))]
      exact ih fun e he => h e (List.mem_cons_of_mem _ he)

/-- Deleting an absent key changes nothing. -/
lemma mapDelete_absent {α : Type} {es : List (String × CacheEntry α)} {k : String}
    (h : ∀ e ∈ es, ¬e.1 = k) : mapDelete es k = es :=
  List.filter_eq_self.mpr (by intro e he; simpa using h e he)

/-- Survivors of a delete. -/
lemma mem_of_mem_mapDelete {α : Type} {es : List (String × CacheEntry α)}
    {k : String} {e : String × CacheEntry α} (h : e ∈ mapDelete es k) :
    e ∈ es ∧ ¬e.1 = k := by
  have := List.mem_filter.mp h
  exact ⟨this.1, by simpa using this.2⟩

/-- `mapDelete` produces a sublist. -/
lemma mapDelete_sublist {α : Type} (es : List (String × CacheEntry α)) (k : String) :
    (mapDelete es k).Sublist es :=
  List.filter_sublist es

/-- `mapDelete` preserves key distinctness. -/
lemma keysNodup_mapDelete {α : Type} {es : List (String × CacheEntry α)} {k : String}
    (h : keysNodup es) : keysNodup (mapDelete es k) :=
  List.Nodup.sublist ((mapDelete_sublist es k).map Prod.fst) h

/-- Deleting the head key of a duplicate-free map removes exactly the
head. -/
lemma mapDelete_cons_self {α : Type} {a : String × CacheEntry α}
    {t : List (String × CacheEntry α)} (hnd : keysNodup (a :: t)) :
    mapDelete (a :: t) a.1 = t := by
  unfold mapDelete
  rw [List.filter_cons_of_neg (by simp)]
  apply List.filter_eq_self.mpr
  intro e he
  have hmem : a.1 ∉ t.map Prod.fst := (List.nodup_cons.mp hnd).1
  simp only [Bool.not_eq_eq_eq_not, Bool.not_true, decide_eq_false_iff_not]
  intro hek
  exact hmem (List.mem_map.mpr ⟨e, he, hek⟩)

/-- On a duplicate-free map, deleting a present key shrinks the size by
exactly one. -/
lemma length_mapDelete_present {α : Type} {es : List (String × CacheEntry α)}
    {k : String} (hnd : keysNodup es) (hp : (mapGet es k).isSome = true) :
    (mapDelete es k).length + 1 = es.length := by
  induction es with
  | nil => simp [mapGet] at hp
  | cons a t ih =>
      by_cases ha : a.1 = k
      · have h1 : mapDelete (a :: t) k = mapDelete t k := by
          unfold mapDelete
          exact List.filter_cons_of_neg (by simpa using ha)
        have h2 : mapDelete t k = t := by
          apply mapDelete_absent
          intro e he hek
          exact (List.nodup_cons.mp hnd).1
            (List.mem_map.mpr ⟨e, he, by rw [hek, ha]⟩)
        rw [h1, h2]
        rfl
      · have h1 : mapDelete (a :: t) k = a :: mapDelete t k := by
          unfold mapDelete
          exact List.filter_cons_of_pos (by simpa using ha)
        have h2 : mapGet (a :: t) k = mapGet t k := by
          obtain ⟨a1, a2⟩ := a
          exact mapGet_cons_ne ha
        rw [h1]
        have := ih (List.nodup_cons.mp hnd).2 (by rw [← h2]; exact hp)
        simp only [List.length_cons]
        omega

/-- Setting an absent key appends it at the most-recent end. -/
lemma mapSet_absent {α : Type} {es : List (String × CacheEntry α)} {k : String}
    {v : CacheEntry α} (h : ∀ e ∈ es, ¬e.1 = k) :
    mapSet es k v = es ++ [(k, v)] := by
  have hany : (es.any fun e => decide (e.1 = k)) = false :=
    List.any_eq_false.mpr (by intro e he; simpa using h e he)
  unfold mapSet
  simp only [hany, Bool.false_eq_true, if_false]

/-- Appending a fresh key preserves key distinctness. -/
lemma keysNodup_append_singleton {α : Type} {es : List (String × CacheEntry α)}
    {k : String} {v : CacheEntry α} (hnd : keysNodup es)
    (h : ∀ e ∈ es, ¬e.1 = k) : keysNodup (es ++ [(k, v)]) := by
  unfold keysNodup
  rw [List.map_append]
  refine List.Nodup.append hnd (List.nodup_singleton k) ?_
  intro a ha hb
  rcases List.mem_map.mp ha with ⟨e, he, rfl⟩
  rw [show ([(k, v)].map Prod.fst) = [k] from rfl, List.mem_singleton] at hb
  exact h e he hb

/-- The eviction step only drops entries. -/
lemma evictIfFull_sublist {α : Type} (maxSize : Nat)
    (es : List (String × CacheEntry α)) : (evictIfFull maxSize es).Sublist es := by
  unfold evictIfFull
  split
  · cases es with
    | nil => exact List.Sublist.refl _
    | cons a t => exact List.filter_sublist _
  · exact List.Sublist.refl _

/-- Below capacity nothing is evicted. -/
lemma evictIfFull_lt {α : Type} {maxSize : Nat}
    {es : List (String × CacheEntry α)} (h : es.length < maxSize) :
    evictIfFull maxSize es = es := by
  unfold evictIfFull
  rw [if_neg (by omega)]

/-- At capacity the head entry of a duplicate-free map is evicted. -/
lemma evictIfFull_full {α : Type} {maxSize : Nat} {a : String × CacheEntry α}
    {t : List (String × CacheEntry α)} (hnd : keysNodup (a :: t))
    (hfull : maxSize ≤ (a :: t).length) :
    evictIfFull maxSize (a :: t) = t := by
  unfold evictIfFull
  rw [if_pos hfull]
  exact mapDelete_cons_self hnd

/-- Converse of `mapGet_eq_none`. -/
lemma absent_of_mapGet_eq_none {α : Type} {es : List (String × CacheEntry α)}
    {k : String} (h : mapGet es k = none) : ∀ e ∈ es, ¬e.1 = k := by
  unfold mapGet at h
  have h2 := List.find?_eq_none.mp (Option.map_eq_none'.mp h)
  intro e he
  simpa using h2 e he

/-- `set` on an absent key: evict at capacity, then append. -/
lemma set_entries_absent {α : Type} (c : LRUCache α) (now : Nat) (k : String)
    (v : α) (habs : mapGet c.entries k = none) :
    (c.set now k v).entries = evictIfFull c.maxSize c.entries ++ [(k, ⟨v, now⟩)] := by
  unfold LRUCache.set
  simp only [habs, Option.isSome_none, Bool.false_eq_true, if_false]
  exact mapSet_absent fun e he =>
    absent_of_mapGet_eq_none habs e ((evictIfFull_sublist _ _).subset he)

/-- `set` on a present key of an in-capacity, duplicate-free cache:
delete then append, with no eviction. -/
lemma set_entries_present {α : Type} (c : LRUCache α) (now : Nat) (k : String)
    (v : α) (hnd : keysNodup c.entries) (hp : (mapGet c.entries k).isSome = true)
    (hlen : c.entries.length ≤ c.maxSize) :
    (c.set now k v).entries = mapDelete c.entries k ++ [(k, ⟨v, now⟩)] := by
  have hlen1 : (mapDelete c.entries k).length + 1 = c.entries.length :=
    length_mapDelete_present hnd hp
  have hlt : (mapDelete c.entries k).length < c.maxSize := by omega
  unfold LRUCache.set
  simp only [hp, if_true]
  show mapSet (evictIfFull c.maxSize (mapDelete c.entries k)) k ⟨v, now⟩ = _
  rw [evictIfFull_lt hlt]
  exact mapSet_absent fun e he => (mem_of_mem_mapDelete he).2

/-- `get` on a missing key leaves the cache unchanged. -/
lemma get_of_mapGet_none {α : Type} (c : LRUCache α) (now : Nat) (k : String)
    (h : mapGet c.entries k = none) : c.get now k = (none, c) := by
  unfold LRUCache.get
  rw [h]

/-- `get` on a hit without TTL: return the value and move the entry to
the most-recent end. -/
lemma get_of_mapGet_some {α : Type} (c : LRUCache α) (now : Nat) (k : String)
    (e : CacheEntry α) (hT : c.ttlMs = none) (h : mapGet c.entries k = some e) :
    c.get now k =
      (some e.value, { c with entries := mapSet (mapDelete c.entries k) k e }) := by
  unfold LRUCache.get
  rw [h, hT]

/-- Every operation preserves key distinctness and, for a positive
capacity, the size bound; capacity and TTL are never changed. -/
lemma applyOp_inv {α : Type} (c : LRUCache α) (op : CacheOp α)
    (hN : 1 ≤ c.maxSize) (hnd : keysNodup c.entries)
    (hlen : c.entries.length ≤ c.maxSize) :
    (applyOp c op).maxSize = c.maxSize ∧ (applyOp c op).ttlMs = c.ttlMs ∧
    keysNodup (applyOp c op).entries ∧
    (applyOp c op).entries.length ≤ c.maxSize := by
  cases op with
  | clear => exact ⟨rfl, rfl, List.nodup_nil, by simp [applyOp, LRUCache.clear]⟩
  | delete k =>
      refine ⟨rfl, rfl, keysNodup_mapDelete hnd, ?_⟩
      exact le_trans (List.length_filter_le _ _) hlen
  | set now k v =>
      show (c.set now k v).maxSize = c.maxSize ∧ (c.set now k v).ttlMs = c.ttlMs ∧
        keysNodup (c.set now k v).entries ∧ (c.set now k v).entries.length ≤ c.maxSize
      cases hp : (mapGet c.entries k).isSome with
      | false =>
          have habs : mapGet c.entries k = none := by
            cases hm : mapGet c.entries k with
            | none => rfl
            | some e => rw [hm] at hp; simp at hp
          rw [set_entries_absent c now k v habs]
          have habs' : ∀ e ∈ evictIfFull c.maxSize c.entries, ¬e.1 = k := fun e he =>
            absent_of_mapGet_eq_none habs e ((evictIfFull_sublist _ _).subset he)
          have hndE : keysNodup (evictIfFull c.maxSize c.entries) :=
            List.Nodup.sublist ((evictIfFull_sublist _ _).map Prod.fst) hnd
          refine ⟨rfl, rfl, keysNodup_append_singleton hndE habs', ?_⟩
          rw [List.length_append]
          rcases lt_or_ge c.entries.length c.maxSize with hlt | hge
          · rw [evictIfFull_lt hlt]
            simpa using hlt
          · cases hes : c.entries with
            | nil => rw [hes] at hge; simp at hge; omega
            | cons a t =>
                rw [hes] at hge hnd hlen
                rw [evictIfFull_full hnd hge]
                simpa using hlen
      | true =>
          rw [set_entries_present c now k v hnd hp hlen]
          have hlen1 : (mapDelete c.entries k).length + 1 = c.entries.length :=
            length_mapDelete_present hnd hp
          refine ⟨rfl, rfl,
            keysNodup_append_singleton (keysNodup_mapDelete hnd)
              (fun e he => (mem_of_mem_mapDelete he).2), ?_⟩
          rw [List.length_append]
          simp only [List.length_singleton]
          omega
  | get now k =>
      show ((c.get now k).2).maxSize = c.maxSize ∧ ((c.get now k).2).ttlMs = c.ttlMs ∧
        keysNodup ((c.get now k).2).entries ∧
        ((c.get now k).2).entries.length ≤ c.maxSize
      cases hm : mapGet c.entries k with
      | none => rw [get_of_mapGet_none c now k hm]; exact ⟨rfl, rfl, hnd, hlen⟩
      | some e =>
          have hmoved :
              keysNodup (mapSet (mapDelete c.entries k) k e) ∧
              (mapSet (mapDelete c.entries k) k e).length ≤ c.maxSize := by
            rw [mapSet_absent fun e' he' => (mem_of_mem_mapDelete he').2]
            have hlen1 : (mapDelete c.entries k).length + 1 = c.entries.length :=
              length_mapDelete_present hnd (by rw [hm]; rfl)
            refine ⟨keysNodup_append_singleton (keysNodup_mapDelete hnd)
              (fun e' he' => (mem_of_mem_mapDelete he').2), ?_⟩
            rw [List.length_append]
            simp only [List.length_singleton]
            omega
          cases hT : c.ttlMs with
          | none =>
              rw [get_of_mapGet_some c now k e hT hm]
              exact ⟨rfl, hT.symm ▸ rfl, hmoved.1, hmoved.2⟩
          | some ttl =>
              unfold LRUCache.get
              simp only [hm, hT]
              by_cases hexp : now - e.timestamp > ttl
              · rw [if_pos hexp]
                exact ⟨rfl, rfl, keysNodup_mapDelete hnd,
                  le_trans (List.length_filter_le _ _) hlen⟩
              · rw [if_neg hexp]
                exact ⟨rfl, rfl, hmoved.1, hmoved.2⟩
  | has now k =>
      show ((c.has now k).2).maxSize = c.maxSize ∧ ((c.has now k).2).ttlMs = c.ttlMs ∧
        keysNodup ((c.has now k).2).entries ∧
        ((c.has now k).2).entries.length ≤ c.maxSize
      unfold LRUCache.has
      cases hm : mapGet c.entries k with
      | none => exact ⟨rfl, rfl, hnd, hlen⟩
      | some e =>
          cases hT : c.ttlMs with
          | none => exact ⟨rfl, hT, hnd, hlen⟩
          | some ttl =>
              simp only [hT]
              by_cases hexp : now - e.timestamp > ttl
              · rw [if_pos hexp]
                exact ⟨rfl, rfl, keysNodup_mapDelete hnd,
                  le_trans (List.length_filter_le _ _) hlen⟩
              · rw [if_neg hexp]
                exact ⟨rfl, hT, hnd, hlen⟩

/-- The invariant holds after any operation sequence. -/
lemma applyOps_inv {α : Type} (ops : List (CacheOp α)) :
    ∀ c : LRUCache α, 1 ≤ c.maxSize → keysNodup c.entries →
      c.entries.length ≤ c.maxSize →
      (applyOps c ops).maxSize = c.maxSize ∧
      keysNodup (applyOps c ops).entries ∧
      (applyOps c ops).entries.length ≤ c.maxSize := by
  induction ops with
  | nil => intro c _ h2 h3; exact ⟨rfl, h2, h3⟩
  | cons op rest ih =>
      intro c h1 h2 h3
      obtain ⟨hm, _, hn, hl⟩ := applyOp_inv c op h1 h2 h3
      obtain ⟨am, an, al⟩ :=
        ih (applyOp c op) (by rw [hm]; exact h1) hn (by rw [hm]; exact hl)
      exact ⟨am.trans hm, an, by rw [hm] at al; exact al⟩

/-- Filling a cache with fresh distinct keys, within capacity, appends
the corresponding entries in order. -/
lemma setAll_fill {α : Type} (now : Nat) :
    ∀ (kvs : List (String × α)) (c : LRUCache α),
      (kvs.map Prod.fst).Nodup →
      (∀ kv ∈ kvs, ∀ e ∈ c.entries, ¬e.1 = kv.1) →
      c.entries.length + kvs.length ≤ c.maxSize →
      (setAll c now kvs).entries = c.entries ++ entriesOf now kvs ∧
      (setAll c now kvs).maxSize = c.maxSize ∧
      (setAll c now kvs).ttlMs = c.ttlMs := by
  intro kvs
  induction kvs with
  | nil =>
      intro c _ _ _
      exact ⟨(List.append_nil _).symm, rfl, rfl⟩
  | cons kv rest ih =>
      intro c hnd hfresh hlen
      have habs : mapGet c.entries kv.1 = none :=
        mapGet_eq_none fun e he => hfresh kv (List.mem_cons_self kv rest) e he
      have hlt : c.entries.length < c.maxSize := by
        simp only [List.length_cons] at hlen
        omega
      have hstep : (c.set now kv.1 kv.2).entries =
          c.entries ++ [(kv.1, ⟨kv.2, now⟩)] := by
        rw [set_entries_absent c now kv.1 kv.2 habs, evictIfFull_lt hlt]
      have hkv : kv.1 ∉ rest.map Prod.fst := (List.nodup_cons.mp hnd).1
      have hfresh' : ∀ kv' ∈ rest, ∀ e ∈ (c.set now kv.1 kv.2).entries,
          ¬e.1 = kv'.1 := by
        intro kv' hkv' e he hek
        rw [hstep] at he
        rcases List.mem_append.mp he with he | he
        · exact hfresh kv' (List.mem_cons_of_mem kv hkv') e he hek
        · rw [List.mem_singleton] at he
          subst he
          exact hkv (by rw [hek]; exact List.mem_map.mpr ⟨kv', hkv', rfl⟩)
      have hlen' : (c.set now kv.1 kv.2).entries.length + rest.length ≤
          (c.set now kv.1 kv.2).maxSize := by
        show _ ≤ c.maxSize
        rw [hstep, List.length_append]
        simp only [List.length_cons] at hlen
        simp only [List.length_singleton]
        omega
      have hind := ih (c.set now kv.1 kv.2) (List.nodup_cons.mp hnd).2 hfresh' hlen'
      refine ⟨?_, ?_, ?_⟩
      · show (setAll (c.set now kv.1 kv.2) now rest).entries = _
        rw [hind.1, hstep, List.append_assoc]
        rfl
      · show (setAll (c.set now kv.1 kv.2) now rest).maxSize = _
        rw [hind.2.1]
        rfl
      · show (setAll (c.set now kv.1 kv.2) now rest).ttlMs = _
        rw [hind.2.2]
        rfl

/-- The keys of a freshly filled cache. -/
lemma keys_entriesOf {α : Type} (now : Nat) (kvs : List (String × α)) :
    (entriesOf now kvs).map Prod.fst = kvs.map Prod.fst := by
  induction kvs with
  | nil => rfl
  | cons kv rest ih => simp only [entriesOf, List.map_cons] at ih ⊢; rw [ih]

/-- Lookup in a freshly filled, duplicate-free cache. -/
lemma mapGet_entriesOf {α : Type} {now : Nat} {kvs : List (String × α)}
    {kv : String × α} (hnd : (kvs.map Prod.fst).Nodup) (hm : kv ∈ kvs) :
    mapGet (entriesOf now kvs) kv.1 = some ⟨kv.2, now⟩ := by
  induction kvs with
  | nil => cases hm
  | cons a rest ih =>
      rcases List.mem_cons.mp hm with rfl | hm'
      · exact mapGet_cons_self
      · have hne : ¬a.1 = kv.1 := by
          intro he
          exact (List.nodup_cons.mp hnd).1
            (by rw [he]; exact List.mem_map.mpr ⟨kv, hm', rfl⟩)
        show mapGet ((a.1, ⟨a.2, now⟩) :: entriesOf now rest) kv.1 = _
        rw [mapGet_cons_ne hne]
        exact ih (List.nodup_cons.mp hnd).2 hm'

/-- C10: starting from any capacity N ≥ 1, the size never exceeds N over
any sequence of get/set/has/delete/clear operations; `set` on an
already-present key keeps the size unchanged; and `set` on a fresh key
at capacity evicts exactly the oldest entry, leaving the size at N. -/
theorem c10_size_invariant :
    (∀ (α : Type) (N : Nat) (ttl : Option Nat) (ops : List (CacheOp α)),
      1 ≤ N → (applyOps (LRUCache.empty α N ttl) ops).size ≤ N) ∧
    (∀ (α : Type) (c : LRUCache α) (now : Nat) (k : String) (v : α),
      keysNodup c.entries → c.entries.length ≤ c.maxSize →
      (mapGet c.entries k).isSome = true →
      (c.set now k v).size = c.size) ∧
    (∀ (α : Type) (c : LRUCache α) (now : Nat) (k : String) (v : α)
        (a : String × CacheEntry α) (t : List (String × CacheEntry α)),
      keysNodup c.entries → mapGet c.entries k = none →
      c.entries = a :: t → c.maxSize = t.length + 1 →
      (c.set now k v).entries = t ++ [(k, ⟨v, now⟩)] ∧
      (c.set now k v).size = c.maxSize) := by
  refine ⟨?_, ?_, ?_⟩
  · intro α N ttl ops hN
    exact (applyOps_inv ops (LRUCache.empty α N ttl) hN List.nodup_nil
      (Nat.zero_le N)).2.2
  · intro α c now k v hnd hlen hp
    show (c.set now k v).entries.length = c.entries.length
    rw [set_entries_present c now k v hnd hp hlen, List.length_append]
    have := length_mapDelete_present hnd hp
    simp only [List.length_singleton]
    omega
  · intro α c now k v a t hnd habs hes hmax
    rw [hes] at hnd
    have hfull : c.maxSize ≤ c.entries.length := by
      rw [hes, hmax]
      simp
    have h1 : (c.set now k v).entries = t ++ [(k, ⟨v, now⟩)] := by
      rw [set_entries_absent c now k v habs, hes,
        evictIfFull_full hnd (hes ▸ hfull)]
    refine ⟨h1, ?_⟩
    show (c.set now k v).entries.length = c.maxSize
    rw [h1, List.length_append, hmax]
    simp

/-- Witness for C10 at capacity 2 with concrete operation sequences. -/
theorem c10_size_invariant_witness :
    (applyOps (LRUCache.empty Nat 2 none)
        [CacheOp.set 0 "a" 1, CacheOp.set 1 "b" 2, CacheOp.set 2 "c" 3,
         CacheOp.get 3 "b", CacheOp.has 4 "c", CacheOp.delete "b",
         CacheOp.set 5 "d" 4, CacheOp.clear, CacheOp.set 6 "e" 5]).size ≤ 2 ∧
    ((LRUCache.mk [("a", ⟨1, 0⟩), ("b", ⟨2, 0⟩)] 2 none : LRUCache Nat).set 3 "a" 9).size =
      (LRUCache.mk [("a", ⟨1, 0⟩), ("b", ⟨2, 0⟩)] 2 none : LRUCache Nat).size ∧
    (((LRUCache.mk [("a", ⟨1, 0⟩), ("b", ⟨2, 0⟩)] 2 none : LRUCache Nat).set 3 "c" 7).entries =
        [("b", ⟨2, 0⟩)] ++ [("c", ⟨7, 3⟩)] ∧
      ((LRUCache.mk [("a", ⟨1, 0⟩), ("b", ⟨2, 0⟩)] 2 none : LRUCache Nat).set 3 "c" 7).size =
        (LRUCache.mk [("a", ⟨1, 0⟩), ("b", ⟨2, 0⟩)] 2 none : LRUCache Nat).maxSize) :=
  ⟨c10_size_invariant.1 Nat 2 none
      [CacheOp.set 0 "a" 1, CacheOp.set 1 "b" 2, CacheOp.set 2 "c" 3,
       CacheOp.get 3 "b", CacheOp.has 4 "c", CacheOp.delete "b",
       CacheOp.set 5 "d" 4, CacheOp.clear, CacheOp.set 6 "e" 5] (by decide),
   c10_size_invariant.2.1 Nat ⟨[("a", ⟨1, 0⟩), ("b", ⟨2, 0⟩)], 2, none⟩ 3 "a" 9
      (by decide) (by decide) (by decide),
   c10_size_invariant.2.2 Nat ⟨[("a", ⟨1, 0⟩), ("b", ⟨2, 0⟩)], 2, none⟩ 3 "c" 7
      ("a", ⟨1, 0⟩) [("b", ⟨2, 0⟩)] (by decide) (by decide) rfl rfl⟩

/-- C9 (amended): from an empty cache of capacity N ≥ 1, after N+1 `set`
calls with pairwise-distinct keys and no intervening reads, `get` on the
first-inserted key returns undefined; and for capacities N ≥ 2, a `get`
on any one of the first N keys before the (N+1)th `set` protects that
key — its value is still returned afterwards — while a different one of
the first N keys is evicted instead. (At N = 1 the protection clause
fails; see the counterexample.) -/
theorem c9_lru_eviction :
    (∀ (α : Type) (N now : Nat) (kvs : List (String × α)) (k0 : String)
        (v0 : α) (lastK : String) (lastV : α),
      1 ≤ N → kvs.length = N →
      ((kvs ++ [(lastK, lastV)]).map Prod.fst).Nodup →
      kvs.head? = some (k0, v0) →
      ((setAll (LRUCache.empty α N none) now (kvs ++ [(lastK, lastV)])).get
          now k0).1 = none) ∧
    (∀ (α : Type) (N now : Nat) (kvs : List (String × α)) (kv : String × α)
        (lastK : String) (lastV : α),
      2 ≤ N → kvs.length = N →
      ((kvs ++ [(lastK, lastV)]).map Prod.fst).Nodup →
      kv ∈ kvs →
      (((((setAll (LRUCache.empty α N none) now kvs).get now kv.1).2).set now
          lastK lastV).get now kv.1).1 = some kv.2 ∧
      ∃ kv2 ∈ kvs, ¬kv2.1 = kv.1 ∧
        (((((setAll (LRUCache.empty α N none) now kvs).get now kv.1).2).set now
            lastK lastV).get now kv2.1).1 = none) := by
  constructor
  · intro α N now kvs k0 v0 lastK lastV hN hlen hnd hhead
    have hndK : (kvs.map Prod.fst).Nodup := by
      rw [List.map_append] at hnd
      exact hnd.of_append_left
    have hdisj : ∀ x ∈ kvs, ¬x.1 = lastK := by
      rw [List.map_append] at hnd
      have hd := List.disjoint_of_nodup_append hnd
      intro x hx he
      exact hd (List.mem_map.mpr ⟨x, hx, rfl⟩) (by rw [he]; exact List.mem_cons_self _ _)
    have hfill := setAll_fill now kvs (LRUCache.empty α N none) hndK
      (fun _ _ e he => absurd he (List.not_mem_nil e))
      (by simpa [LRUCache.empty] using Nat.le_of_eq hlen)
    have hsplit : setAll (LRUCache.empty α N none) now (kvs ++ [(lastK, lastV)]) =
        (setAll (LRUCache.empty α N none) now kvs).set now lastK lastV := by
      unfold setAll
      rw [List.foldl_append]
      rfl
    rw [hsplit]
    have hE1 : (setAll (LRUCache.empty α N none) now kvs).entries =
        entriesOf now kvs := by
      rw [hfill.1]
      rfl
    have habs : mapGet (setAll (LRUCache.empty α N none) now kvs).entries lastK =
        none := by
      rw [hE1]
      apply mapGet_eq_none
      intro e he hek
      rcases List.mem_map.mp he with ⟨x, hx, rfl⟩
      exact hdisj x hx hek
    cases kvs with
    | nil => exact Option.noConfusion hhead
    | cons kv0 restk =>
        replace hhead : some kv0 = some (k0, v0) := hhead
        replace hhead := Option.some.inj hhead
        subst hhead
        have hndE : keysNodup (setAll (LRUCache.empty α N none) now
            ((k0, v0) :: restk)).entries := by
          rw [hE1]
          unfold keysNodup
          rw [keys_entriesOf]
          exact hndK
        have hfullE : N ≤ (setAll (LRUCache.empty α N none) now
            ((k0, v0) :: restk)).entries.length := by
          rw [hE1]
          unfold entriesOf
          rw [List.length_map, hlen]
        have hmaxE : (setAll (LRUCache.empty α N none) now
            ((k0, v0) :: restk)).maxSize = N := hfill.2.1
        have hset := set_entries_absent
          (setAll (LRUCache.empty α N none) now ((k0, v0) :: restk))
          now lastK lastV habs
        rw [hmaxE] at hset
        have hE1' : (setAll (LRUCache.empty α N none) now ((k0, v0) :: restk)).entries =
            (k0, ⟨v0, now⟩) :: entriesOf now restk := hE1
        rw [hE1'] at hset hndE hfullE
        rw [evictIfFull_full hndE hfullE] at hset
        have habs2 : mapGet ((setAll (LRUCache.empty α N none) now
            ((k0, v0) :: restk)).set now lastK lastV).entries k0 = none := by
          rw [hset]
          apply mapGet_eq_none
          intro e he hek
          rcases List.mem_append.mp he with he | he
          · rcases List.mem_map.mp he with ⟨x, hx, rfl⟩
            exact (List.nodup_cons.mp hndK).1
              (by rw [← hek]; exact List.mem_map.mpr ⟨x, hx, rfl⟩)
          · rw [List.mem_singleton] at he
            subst he
            exact hdisj (k0, v0) (List.mem_cons_self _ _) hek.symm
        rw [get_of_mapGet_none _ now k0 habs2]
  · intro α N now kvs kv lastK lastV hN2 hlen hnd hmem
    have hndK : (kvs.map Prod.fst).Nodup := by
      rw [List.map_append] at hnd
      exact hnd.of_append_left
    have hdisj : ∀ x ∈ kvs, ¬x.1 = lastK := by
      rw [List.map_append] at hnd
      have hd := List.disjoint_of_nodup_append hnd
      intro x hx he
      exact hd (List.mem_map.mpr ⟨x, hx, rfl⟩) (by rw [he]; exact List.mem_cons_self _ _)
    have hfill := setAll_fill now kvs (LRUCache.empty α N none) hndK
      (fun _ _ e he => absurd he (List.not_mem_nil e))
      (by simpa [LRUCache.empty] using Nat.le_of_eq hlen)
    generalize hgen : setAll (LRUCache.empty α N none) now kvs = c1
    rw [hgen] at hfill
    have hE1 : c1.entries = entriesOf now kvs := by
      rw [hfill.1]
      rfl
    have hmax1 : c1.maxSize = N := hfill.2.1
    have httl1 : c1.ttlMs = none := hfill.2.2
    have hndE1 : keysNodup c1.entries := by
      rw [hE1]
      unfold keysNodup
      rw [keys_entriesOf]
      exact hndK
    have hlen1 : c1.entries.length = N := by
      rw [hE1]
      unfold entriesOf
      rw [List.length_map, hlen]
    have hget1 : mapGet c1.entries kv.1 = some ⟨kv.2, now⟩ := by
      rw [hE1]
      exact mapGet_entriesOf hndK hmem
    have hc2eq : (c1.get now kv.1).2 =
        { c1 with entries := mapSet (mapDelete c1.entries kv.1) kv.1 ⟨kv.2, now⟩ } := by
      rw [get_of_mapGet_some c1 now kv.1 ⟨kv.2, now⟩ httl1 hget1]
    rw [hc2eq]
    generalize hc2 : ({ c1 with
      entries := mapSet (mapDelete c1.entries kv.1) kv.1 ⟨kv.2, now⟩ } : LRUCache α) = c2
    have hDabs : ∀ e ∈ mapDelete c1.entries kv.1, ¬e.1 = kv.1 :=
      fun e he => (mem_of_mem_mapDelete he).2
    have hndD : keysNodup (mapDelete c1.entries kv.1) := keysNodup_mapDelete hndE1
    have hE2 : c2.entries = mapDelete c1.entries kv.1 ++ [(kv.1, ⟨kv.2, now⟩)] := by
      rw [← hc2]
      exact mapSet_absent hDabs
    have httl2 : c2.ttlMs = none := by
      rw [← hc2]
      exact httl1
    have hmax2 : c2.maxSize = N := by
      rw [← hc2]
      exact hmax1
    have hndE2 : keysNodup c2.entries := by
      rw [hE2]
      exact keysNodup_append_singleton hndD hDabs
    have hlenD : (mapDelete c1.entries kv.1).length + 1 = c1.entries.length :=
      length_mapDelete_present hndE1 (by rw [hget1]; rfl)
    have hlen2 : c2.entries.length = N := by
      rw [hE2, List.length_append]
      simp only [List.length_singleton]
      omega
    have habs2 : mapGet c2.entries lastK = none := by
      rw [hE2]
      apply mapGet_eq_none
      intro e he hek
      rcases List.mem_append.mp he with he | he
      · have he1 := (mem_of_mem_mapDelete he).1
        rw [hE1] at he1
        rcases List.mem_map.mp he1 with ⟨x, hx, rfl⟩
        exact hdisj x hx hek
      · rw [List.mem_singleton] at he
        subst he
        exact hdisj kv hmem hek
    have hset := set_entries_absent c2 now lastK lastV habs2
    cases hDe : mapDelete c1.entries kv.1 with
    | nil =>
        exfalso
        rw [hDe] at hlenD
        simp only [List.length_nil] at hlenD
        omega
    | cons d D' =>
        rw [hDe] at hE2 hndD hDabs
        have hcons : c2.entries = d :: (D' ++ [(kv.1, ⟨kv.2, now⟩)]) := by
          rw [hE2]
          rfl
        have hfull2 : c2.maxSize ≤ c2.entries.length := by
          rw [hlen2, hmax2]
        have hev : evictIfFull c2.maxSize c2.entries =
            D' ++ [(kv.1, ⟨kv.2, now⟩)] := by
          rw [hcons]
          exact evictIfFull_full (by rw [← hcons]; exact hndE2)
            (by rw [← hcons]; exact hfull2)
        have hE3 : (c2.set now lastK lastV).entries =
            (D' ++ [(kv.1, ⟨kv.2, now⟩)]) ++ [(lastK, ⟨lastV, now⟩)] := by
          rw [hset, hev]
        have hD'abs : ∀ e ∈ D', ¬e.1 = kv.1 :=
          fun e he => hDabs e (List.mem_cons_of_mem d he)
        have httl3 : (c2.set now lastK lastV).ttlMs = none := httl2
        have hget3 : mapGet (c2.set now lastK lastV).entries kv.1 =
            some ⟨kv.2, now⟩ := by
          rw [hE3, List.append_assoc, mapGet_append_absent hD'abs]
          exact mapGet_cons_self
        refine ⟨?_, ?_⟩
        · rw [get_of_mapGet_some (c2.set now lastK lastV) now kv.1 ⟨kv.2, now⟩
            httl3 hget3]
        · have hdD : d ∈ mapDelete c1.entries kv.1 := by
            rw [hDe]
            exact List.mem_cons_self d D'
          have hd1 : ¬d.1 = kv.1 := (mem_of_mem_mapDelete hdD).2
          have hdE1 : d ∈ entriesOf now kvs := by
            have hh := (mem_of_mem_mapDelete hdD).1
            rw [hE1] at hh
            exact hh
          rcases List.mem_map.mp hdE1 with ⟨kv2, hkv2, hdeq⟩
          have hk2d : kv2.1 = d.1 := by rw [← hdeq]
          have hdD' : d.1 ∉ D'.map Prod.fst := (List.nodup_cons.mp hndD).1
          refine ⟨kv2, hkv2, by rw [hk2d]; exact hd1, ?_⟩
          have habs3 : mapGet (c2.set now lastK lastV).entries kv2.1 = none := by
            rw [hE3]
            apply mapGet_eq_none
            intro e he hek
            rcases List.mem_append.mp he with he | he
            · rcases List.mem_append.mp he with he | he
              · exact hdD'
                  (by rw [← hk2d, ← hek]; exact List.mem_map.mpr ⟨e, he, rfl⟩)
              · rw [List.mem_singleton] at he
                subst he
                exact hd1 (by rw [← hk2d, ← hek])
            · rw [List.mem_singleton] at he
              subst he
              exact hdisj kv2 hkv2 hek.symm
          rw [get_of_mapGet_none (c2.set now lastK lastV) now kv2.1 habs3]

/-- Witness for C9: part 1 at capacity 1 with keys a then b; part 2 at
capacity 2 with keys a, b, a `get` on a and a third `set` of c — a
survives and b is evicted. -/
theorem c9_lru_eviction_witness :
    ((setAll (LRUCache.empty Nat 1 none) 0 ([("a", 10)] ++ [("b", 20)])).get 0 "a").1 =
      none ∧
    (((((setAll (LRUCache.empty Nat 2 none) 0 [("a", 10), ("b", 20)]).get 0
        "a").2).set 0 "c" 30).get 0 "a").1 = some 10 ∧
    ∃ kv2 ∈ [(("a", 10) : String × Nat), ("b", 20)], ¬kv2.1 = "a" ∧
      (((((setAll (LRUCache.empty Nat 2 none) 0 [("a", 10), ("b", 20)]).get 0
          "a").2).set 0 "c" 30).get 0 kv2.1).1 = none :=
  ⟨c9_lru_eviction.1 Nat 1 0 [("a", 10)] "a" 10 "b" 20 (by decide) (by decide)
      (by decide) rfl,
   c9_lru_eviction.2 Nat 2 0 [("a", 10), ("b", 20)] ("a", 10) "c" 30 (by decide)
      (by decide) (by decide) (by decide)⟩

/-- C9 counterexample to the claim as stated: at capacity N = 1 the
protection clause fails — after `set a`, `get a`, the second `set` still
evicts a, so `get a` returns undefined. -/
theorem c9_counterexample :
    ((((setAll (LRUCache.empty Nat 1 none) 0 [("a", 1)]).get 0 "a").2.set 0
        "b" 2).get 0 "a").1 = none := by
  decide

end SemanticMcp
